import Mathlib

/-! # Talisman: detection results

A shallow embedding of `detector/detection_results.go`: the result sink that
detectors write their `Fail` and `Ignore` observations into, its verdict
(`Successful`, `HasFailures`, `HasIgnores`) and its report (`Report`,
`ReportFileFailures`, `suggestTalismanRC`, `unique`). The pattern detector and
the suppression resolver, whose sources are not part of the development, are
modelled from the specification of the system.

Conventions of the embedding.

* A Go `string` is its sequence of bytes (`len` and slicing count bytes).
* A Go slice of strings is `Option (List GoString)`: `none` is the `nil`
  slice, `some []` the empty non-nil slice: the contents and the nil-ness of a
  slice. Capacity and the sharing of backing arrays are the subject of the
  second embedding of `Fail`, `MemResults.Fail`, over slice headers and a heap
  of arrays.
* A Go map is the list of its entries, in the order in which a `range` loop
  visits them. Go leaves that order unspecified, so a property that has to hold
  for every iteration order is stated for every permutation of the entries.
  Keys of a well-formed map are pairwise distinct (`GoMap.WF`).
* A `*FailureData` is `Option FailureData` (`none` is the nil pointer) and a
  run-time panic of a function is the result `none`.
-/

namespace Talisman

/-- Go `string`: a sequence of bytes. -/
abbrev GoString := List UInt8

/-- The bytes (UTF-8) of a string literal. -/
def goStr (s : String) : GoString := s.data.flatMap String.utf8EncodeChar

/-- Go `[]string` as its contents; `none` is the nil slice. The backing array of
a slice is kept by `MemSlice`. -/
abbrev GoSlice := Option (List GoString)

/-- The elements of a slice; the nil slice has none. -/
def GoSlice.elems : GoSlice → List GoString
  | none => []
  | some xs => xs

/-- Go `len(s)` of a slice. -/
def GoSlice.len (s : GoSlice) : Nat := s.elems.length

/-- Go `append(s, xs...)` on the contents: appending nothing to the nil slice
gives the nil slice back, every other result is non-nil. Where the result lives
(in the array of `s` or in a new one) is kept by `appendMem`. -/
def GoSlice.append (s : GoSlice) (xs : List GoString) : GoSlice :=
  match s, xs with
  | none, [] => none
  | s, xs => some (s.elems ++ xs)

/-- Go map: its entries in range order. -/
abbrev GoMap (κ : Type) (ν : Type) := List (κ × ν)

namespace GoMap

variable {κ ν : Type} [DecidableEq κ]

/-- The keys in range order. -/
def keys (m : GoMap κ ν) : List κ := m.map Prod.fst

/-- The representation invariant of a map: no key occurs twice. -/
def WF (m : GoMap κ ν) : Prop := m.keys.Nodup

/-- The comma-ok lookup `v, ok := m[k]`; `none` when the key is absent. -/
def get? : GoMap κ ν → κ → Option ν
  | [], _ => none
  | (k', v) :: rest, k => if k' = k then some v else get? rest k

/-- The assignment `m[k] = v`: overwrite the entry of `k`, or add one. -/
def set : GoMap κ ν → κ → ν → GoMap κ ν
  | [], k, v => [(k, v)]
  | (k', v') :: rest, k, v =>
    if k' = k then (k, v) :: rest else (k', v') :: set rest k v

end GoMap

/-- Go `type FilePath string` of package `git_repo`. -/
abbrev FilePath := GoString

/-- Go `type FailureData struct`; a `none` field is the nil map. -/
structure FailureData where
  FailuresInCommits : Option (GoMap GoString GoSlice)
deriving DecidableEq, Repr

/-- Go `type DetectionResults struct`. Both maps are allocated (they are made by
`NewDetectionResults`); a `none` value in `Failures` is a nil pointer. -/
structure DetectionResults where
  Failures : GoMap FilePath (Option FailureData)
  ignores : GoMap FilePath GoSlice
deriving DecidableEq, Repr

/-- Go `NewDetectionResults`: two empty maps. -/
def NewDetectionResults : DetectionResults := ⟨[], []⟩

/-- Go `r.Failures[filePath]`: the nil pointer when the key is absent. -/
def failuresAt (r : DetectionResults) (filePath : FilePath) : Option FailureData :=
  (r.Failures.get? filePath).join

/-- Go `m[message]` on a `map[string][]string`: the nil slice when the key is
absent. -/
def commitsIn (m : GoMap GoString GoSlice) (message : GoString) : GoSlice :=
  (m.get? message).join

/-- Go `(*DetectionResults).Fail`, on the contents of the slices: what the call
stores under the message. The same function over slice headers, where the
stored slice may share its array with other slices, is `MemResults.Fail`. -/
def DetectionResults.Fail (r : DetectionResults) (filePath : FilePath) (message : GoString)
    (commits : GoSlice) : DetectionResults :=
  -- if r.Failures[filePath] == nil { r.Failures[filePath] = &FailureData{make(...)} }
  let failures1 : GoMap FilePath (Option FailureData) :=
    match failuresAt r filePath with
    | none => r.Failures.set filePath (some ⟨some []⟩)
    | some _ => r.Failures
  let data1 : FailureData := ((failures1.get? filePath).join).getD ⟨some []⟩
  -- if r.Failures[filePath].FailuresInCommits == nil { ... = make(...) }
  let inner : GoMap GoString GoSlice :=
    match data1.FailuresInCommits with
    | none => []
    | some m => m
  -- existingCommits := r.Failures[filePath].FailuresInCommits[message]
  let existingCommits : GoSlice := commitsIn inner message
  let stored : GoSlice :=
    if existingCommits.len = 0 then commits
    else (commitsIn inner message).append commits.elems
  { r with Failures := failures1.set filePath (some ⟨some (inner.set message stored)⟩) }

/-- Go `(*DetectionResults).Ignore`. -/
def DetectionResults.Ignore (r : DetectionResults) (filePath : FilePath) (detector : GoString) :
    DetectionResults :=
  match r.ignores.get? filePath with
  | none => { r with ignores := r.ignores.set filePath (some [detector]) }
  | some ignores => { r with ignores := r.ignores.set filePath (ignores.append [detector]) }

/-- Go `(*DetectionResults).HasFailures`. -/
def DetectionResults.HasFailures (r : DetectionResults) : Bool :=
  decide (r.Failures.length > 0)

/-- Go `(*DetectionResults).HasIgnores`. -/
def DetectionResults.HasIgnores (r : DetectionResults) : Bool :=
  decide (r.ignores.length > 0)

/-- Go `(*DetectionResults).Successful`. -/
def DetectionResults.Successful (r : DetectionResults) : Bool :=
  !r.HasFailures

/-- Go `(*DetectionResults).GetFailures`. -/
def DetectionResults.GetFailures (r : DetectionResults) (fileName : FilePath) :
    Option FailureData :=
  failuresAt r fileName

/-- One call made by a detector on the result sink. -/
inductive Call where
  | fail (filePath : FilePath) (message : GoString) (commits : GoSlice)
  | ignore (filePath : FilePath) (detector : GoString)
deriving DecidableEq, Repr

/-- Whether the call is a `Fail`. -/
def Call.isFail : Call → Bool
  | .fail _ _ _ => true
  | .ignore _ _ => false

/-- The effect of one call. -/
def Call.apply (r : DetectionResults) : Call → DetectionResults
  | .fail f m c => r.Fail f m c
  | .ignore f d => r.Ignore f d

/-- The effect of a sequence of calls, first call first. -/
def runCalls (r : DetectionResults) (cs : List Call) : DetectionResults :=
  cs.foldl Call.apply r

/-- The message map recorded for a file: empty when the file has no failure
data or its data holds the nil map. -/
def messagesOf (r : DetectionResults) (filePath : FilePath) : GoMap GoString GoSlice :=
  match failuresAt r filePath with
  | some ⟨some m⟩ => m
  | _ => []

/-- The commit identifiers stored under a message of a file. -/
def commitsOf (r : DetectionResults) (filePath : FilePath) (message : GoString) :
    List GoString :=
  (commitsIn (messagesOf r filePath) message).elems

/-- The detector names stored in `ignores` for a file. -/
def ignoresOf (r : DetectionResults) (filePath : FilePath) : List GoString :=
  GoSlice.elems (r.ignores.get? filePath).join

/-- The slice that `Fail` stores under the message. -/
def storedCommits (existing commits : GoSlice) : GoSlice :=
  if existing.len = 0 then commits else existing.append commits.elems

/-- Go `unique`: the entries in the order of their first occurrence; `keys` is
the map of the strings seen so far. -/
def unique (stringSlice : List GoString) : List GoString :=
  (stringSlice.foldl
    (fun (st : GoMap GoString Bool × List GoString) entry =>
      match st.1.get? entry with
      | some _ => st
      | none => (st.1.set entry true, st.2 ++ [entry]))
    ([], [])).2

/-- The display form of a failure message in `ReportFileFailures`:
`failureMessage[:150] + "\n" + failureMessage[150:]` when it is longer than 150
bytes. -/
def wrapMessage (failureMessage : GoString) : GoString :=
  if failureMessage.length > 150 then
    failureMessage.take 150 ++ goStr "\n" ++ failureMessage.drop 150
  else failureMessage

/-- Go `(*DetectionResults).ReportFileFailures`. The result is `none` when
`r.Failures[filePath]` is nil: reading `failures.FailuresInCommits` panics. The
nil map has length 0 and is not ranged over. -/
def DetectionResults.ReportFileFailures (r : DetectionResults) (filePath : FilePath) :
    Option (List (List GoString)) :=
  match failuresAt r filePath with
  | none => none
  | some failures =>
    match failures.FailuresInCommits with
    | none => some []
    | some m =>
      if m.length > 0 then
        some (m.foldl (fun data e => data ++ [[filePath, wrapMessage e.1]]) [])
      else some []

/-- Modelled from the spec: the declaration of `FileIgnoreConfig` is not among
the sources; an element of the suppression list has the three fields
`filename`, `checksum` and `ignore_detectors`, in this order. -/
structure FileIgnoreConfig where
  FileName : GoString
  Checksum : GoString
  IgnoreDetectors : GoSlice
deriving DecidableEq, Repr

/-- Modelled from the spec: the declaration of `TalismanRCIgnore` is not among
the sources; it is the single list serialized under the key
`fileignoreconfig`. -/
structure TalismanRCIgnore where
  FileIgnoreConfig : List FileIgnoreConfig
deriving DecidableEq, Repr

/-- The functions that the report calls and that are defined elsewhere:
`CalculateCollectiveHash` of this package and `yaml.Marshal` of the YAML
library, applied to a `TalismanRCIgnore` (an encoding error leaves the
empty string, as the error is dropped). -/
structure Externals where
  CalculateCollectiveHash : List GoString → GoString
  yamlMarshal : TalismanRCIgnore → GoString

/-- Go `(*DetectionResults).suggestTalismanRC`. -/
def suggestTalismanRC (x : Externals) (filePaths : List GoString) : GoString :=
  let fileIgnoreConfigs : List FileIgnoreConfig :=
    filePaths.foldl
      (fun acc filePath =>
        let currentChecksum := x.CalculateCollectiveHash [filePath]
        acc ++ [⟨filePath, currentChecksum, some []⟩])
      []
  x.yamlMarshal ⟨fileIgnoreConfigs⟩

/-- The first piece of the string that `Report` returns. -/
def suggestionHint : GoString :=
  goStr ("\n\x1b[33mIf you are absolutely sure that you want to ignore the above files " ++
    "from talisman detectors, consider pasting the following format in .talismanrc file " ++
    "in the project root\x1b[0m\n")

/-- What a call of `Report` produces: the returned string, and what it writes to
`os.Stdout` on the way, which is nothing (`none`) or the heading
`Talisman Report:` followed by the rendered table of the given rows. -/
structure ReportOutput where
  result : GoString
  stdout : Option (List (List GoString))
deriving DecidableEq, Repr

/-- The first loop of `Report`: the file paths and table rows collected while
ranging over `Failures`; `none` when `ReportFileFailures` panics. -/
def collectFailures (r : DetectionResults) :
    GoMap FilePath (Option FailureData) → List GoString × List (List GoString) →
      Option (List GoString × List (List GoString))
  | [], st => some st
  | (filePath, _) :: rest, st =>
    match r.ReportFileFailures filePath with
    | none => none
    | some failureData => collectFailures r rest (st.1 ++ [filePath], st.2 ++ failureData)

/-- Go `(*DetectionResults).Report`. -/
def DetectionResults.Report (x : Externals) (r : DetectionResults) : Option ReportOutput :=
  match collectFailures r r.Failures ([], []) with
  | none => none
  | some (paths1, data) =>
    let paths2 := r.ignores.foldl (fun acc e => acc ++ [e.1]) paths1
    let filePathsForIgnoresAndFailures := unique paths2
    if r.Failures.length > 0 then
      some ⟨[] ++ suggestionHint ++ suggestTalismanRC x filePathsForIgnoresAndFailures
        ++ goStr "\n\n", some data⟩
    else some ⟨[], none⟩

/-- Every entry of `Failures` is a non-nil pointer. -/
def NoNilFailures (r : DetectionResults) : Prop :=
  ∀ e ∈ r.Failures, e.2 ≠ none

instance (r : DetectionResults) : Decidable (NoNilFailures r) := by
  unfold NoNilFailures; infer_instance

/-- A sample YAML rendering of the suppression list, in the layout of the
repository's fixtures, for names and checksums that need no quoting. -/
def sampleYaml (cfg : TalismanRCIgnore) : GoString :=
  match cfg.FileIgnoreConfig with
  | [] => goStr "fileignoreconfig: []\n"
  | entries =>
    goStr "fileignoreconfig:\n" ++ entries.flatMap (fun e =>
      goStr "- filename: " ++ e.FileName ++ goStr "\n  checksum: " ++ e.Checksum ++
      goStr "\n  ignore_detectors: [" ++ (goStr ", ").intercalate e.IgnoreDetectors.elems ++
      goStr "]\n")

/-- Sample externals: the checksum is the one that the repository's test expects
for `some_file.pem`. -/
def sampleExternals : Externals where
  CalculateCollectiveHash := fun _ =>
    goStr "87139cc4d975333b25b6275f97680604add51b84eb8f4a3b9dcbbc652e6f27ac"
  yamlMarshal := sampleYaml

/-- The messages that the `Fail` calls of a sequence pass for a file, in call
order. -/
def failMessages (f : FilePath) (cs : List Call) : List GoString :=
  cs.filterMap fun
    | .fail f' m _ => if f' = f then some m else none
    | .ignore _ _ => none

/-- The detector names that the `Ignore` calls of a sequence pass for a file, in
call order. -/
def ignoreDetectors (f : FilePath) (cs : List Call) : List GoString :=
  cs.filterMap fun
    | .fail _ _ _ => none
    | .ignore f' d => if f' = f then some d else none

/-- The message keys of a `FailureData`, in range order; the nil map has none. -/
def FailureData.messages (fd : FailureData) : List GoString :=
  match fd.FailuresInCommits with
  | none => []
  | some m => m.keys

/-- The entries that `suggestTalismanRC` builds for a list of paths. -/
def suggestedEntries (x : Externals) (filePaths : List GoString) : List FileIgnoreConfig :=
  filePaths.map fun filePath => ⟨filePath, x.CalculateCollectiveHash [filePath], some []⟩

/-- The calls of the repository's test `TestCanRecordMultipleErrorsAgainstASingleFile`. -/
def multipleErrorsCalls : List Call :=
  [.fail (goStr "some_filename") (goStr "Bomb") (some []),
   .fail (goStr "some_filename") (goStr "Complete & utter failure") (some []),
   .fail (goStr "another_filename") (goStr "Complete & utter failure") (some [])]

/-- The state of the repository's test
`TestTalismanRCSuggestionWhenThereAreFailures`. -/
def bombResults : DetectionResults :=
  NewDetectionResults.Fail (goStr "some_file.pem") (goStr "Bomb") (some [])

/-- A state without failures that holds ignores. -/
def ignoredOnlyResults : DetectionResults :=
  (NewDetectionResults.Ignore (goStr "some_file") (goStr "some-detector")).Ignore
    (goStr "some/other_file") (goStr "some-other-detector")

/-- A state in which one file failed and is ignored, and another file is only
ignored. -/
def mixedResults : DetectionResults :=
  (bombResults.Ignore (goStr "some_file.pem") (goStr "filename")).Ignore
    (goStr "other_file") (goStr "filename")

/-- A state with the file paths of `mixedResults`, in the same order, and with
other messages, commits and detector names. -/
def mixedResultsOther : DetectionResults :=
  (((NewDetectionResults.Fail (goStr "some_file.pem") (goStr "Boom") (some [goStr "c1"])).Fail
    (goStr "some_file.pem") (goStr "Bang") none).Ignore
    (goStr "some_file.pem") (goStr "filecontent")).Ignore (goStr "other_file") (goStr "filesize")

/-- Two entry lists that denote the same Go map, whatever the order in which a
range loop visits them: every lookup has the same result. -/
def GoMap.Same {κ ν : Type} [DecidableEq κ] (m1 m2 : GoMap κ ν) : Prop :=
  ∀ k, m1.get? k = m2.get? k

/-- The same value of `Failures[f]` up to the range order of the message map: a
nil pointer and a nil map are the same as themselves only. -/
def sameData : Option FailureData → Option FailureData → Prop
  | none, none => True
  | some ⟨none⟩, some ⟨none⟩ => True
  | some ⟨some a⟩, some ⟨some b⟩ => GoMap.Same a b
  | _, _ => False

/-- The same result of the lookup `v, ok := Failures[f]`. -/
def sameEntry : Option (Option FailureData) → Option (Option FailureData) → Prop
  | none, none => True
  | some a, some b => sameData a b
  | _, _ => False

/-- Two states that hold the same `Failures` and `ignores` maps, whatever the
range order of the maps. -/
def DetectionResults.Same (r1 r2 : DetectionResults) : Prop :=
  (∀ f, sameEntry (r1.Failures.get? f) (r2.Failures.get? f)) ∧
  GoMap.Same r1.ignores r2.ignores

/-- Two calls that write to different keys: two `Fail` calls with different
(file, message) pairs, two `Ignore` calls with different files, or a `Fail` and
an `Ignore` call. -/
def Call.Independent : Call → Call → Prop
  | .fail f1 m1 _, .fail f2 m2 _ => (f1, m1) ≠ (f2, m2)
  | .ignore f1 _, .ignore f2 _ => f1 ≠ f2
  | _, _ => True

instance (a b : Call) : Decidable (Call.Independent a b) := by
  cases a <;> cases b <;> unfold Call.Independent <;> infer_instance

/-- The state after `Fail("some_filename", "Bomb", [])` and
`Fail("some_filename", "Complete & utter failure", [])`, as in the repository's
test `TestResultsReportsFailures`. -/
def twoMessages : DetectionResults :=
  (NewDetectionResults.Fail (goStr "some_filename") (goStr "Bomb") (some [])).Fail
    (goStr "some_filename") (goStr "Complete & utter failure") (some [])

/-- The state `twoMessages` with the message map ranged over in the other
order. -/
def twoMessagesSwapped : DetectionResults :=
  ⟨[(goStr "some_filename",
      some ⟨some [(goStr "Complete & utter failure", some []), (goStr "Bomb", some [])]⟩)],
   []⟩

/-- A message of 76 characters and 152 bytes. -/
def accentedMessage : String := String.mk (List.replicate 76 'é')

/-- A message of 151 bytes. -/
def longMessage : GoString := List.replicate 151 97

/-- The state after `Fail("b.pem", "Bomb", [])` and `Fail("a.pem", "Bomb", [])`. -/
def twoFiles : DetectionResults :=
  (NewDetectionResults.Fail (goStr "b.pem") (goStr "Bomb") (some [])).Fail
    (goStr "a.pem") (goStr "Bomb") (some [])

/-- The state `twoFiles` with the `Failures` map ranged over in the other
order. -/
def twoFilesSwapped : DetectionResults :=
  ⟨twoFiles.Failures.reverse, twoFiles.ignores⟩

/-- Go `a < b` on strings: the lexicographic order of the bytes. -/
def goStringLt : GoString → GoString → Bool
  | [], [] => false
  | [], _ :: _ => true
  | _ :: _, [] => false
  | a :: as, b :: bs =>
    if a.toNat < b.toNat then true else if a = b then goStringLt as bs else false

/-- Whether a list of paths is in ascending order. -/
def ascending : List GoString → Bool
  | a :: b :: rest => goStringLt a b && ascending (b :: rest)
  | _ => true

/-- Modelled from the spec: the type `Addition` of package `git_repo` is not
among the sources; a changed file has its path, its content and the list of
commits that introduced it, which is nil without commit attribution. -/
structure Addition where
  Path : FilePath
  Data : GoString
  Commits : GoSlice
deriving DecidableEq, Repr

/-- Modelled from the spec: `git_repo.NewAddition(path, content)` is not among
the sources; as the tests call it, it carries no commit attribution. -/
def NewAddition (path : FilePath) (content : GoString) : Addition :=
  ⟨path, content, none⟩

/-- Modelled from the spec: one pattern of the catalog of secret-shaped regular
expressions, which is not among the sources; a pattern is the function that
gives the substrings of a content that match it, in the order of the search. -/
structure SecretPattern where
  findAll : GoString → List GoString
  isSubstring : ∀ content t, t ∈ findAll content → t <:+: content

/-- Modelled from the spec: the pattern detector is not among the sources; it
holds the fixed catalog of patterns, and `NewPatternDetector()` is the detector
of the catalog that the sources do not show. -/
structure PatternDetector where
  patterns : List SecretPattern

/-- Modelled from the spec: the matches of all patterns of the catalog in a
content, pattern by pattern. -/
def PatternDetector.allMatches (d : PatternDetector) (content : GoString) : List GoString :=
  d.patterns.flatMap fun p => p.findAll content

/-- Modelled from the spec: the suppression resolver `IsIgnored(file,
detectorName, spec)` is not among the sources. This is the algorithm of section
4.2 read to the letter: the first entry whose filename is the file decides; it
applies when its checksum is the collective hash of the file (else the result is
not-ignored), and then the file is ignored when the entry lists no detector or
lists this detector; without such an entry the file is not ignored. The other
reading of a stale entry is `IsIgnoredSkippingStale`. -/
def IsIgnored (x : Externals) (file : FilePath) (detectorName : GoString)
    (spec : TalismanRCIgnore) : Bool :=
  match spec.FileIgnoreConfig.find? (fun e => decide (e.FileName = file)) with
  | none => false
  | some e =>
    if e.Checksum = x.CalculateCollectiveHash [file] then
      decide (e.IgnoreDetectors.elems = []) || decide (detectorName ∈ e.IgnoreDetectors.elems)
    else false

/-- Modelled from the spec: `Test(additions, spec, results)` of the pattern
detector is not among the sources. For each addition, for each pattern, for
every match, unless `IsIgnored(addition.path, "filecontent", spec)` holds, it
calls `results.Fail(addition.path, matchedText, commits)`. -/
def PatternDetector.Test (x : Externals) (d : PatternDetector) (additions : List Addition)
    (spec : TalismanRCIgnore) (results : DetectionResults) : DetectionResults :=
  additions.foldl
    (fun r addition =>
      d.patterns.foldl
        (fun r p =>
          (p.findAll addition.Data).foldl
            (fun r matchedText =>
              if IsIgnored x addition.Path (goStr "filecontent") spec then r
              else r.Fail addition.Path matchedText addition.Commits)
            r)
        r)
    results

/-- Modelled from the spec: the suppression resolver, in the reading of sections
3 and 8 for an entry whose checksum is stale: such an entry behaves as if
absent, and the first entry with the filename of the file and its current
collective hash decides, as in `IsIgnored`. -/
def IsIgnoredSkippingStale (x : Externals) (file : FilePath) (detectorName : GoString)
    (spec : TalismanRCIgnore) : Bool :=
  match spec.FileIgnoreConfig.find? (fun e =>
      decide (e.FileName = file) && decide (e.Checksum = x.CalculateCollectiveHash [file])) with
  | none => false
  | some e =>
    decide (e.IgnoreDetectors.elems = []) || decide (detectorName ∈ e.IgnoreDetectors.elems)

/-- Modelled from the spec: `Test(additions, spec, results)` of the pattern
detector, as `PatternDetector.Test`, over a given suppression resolver. -/
def PatternDetector.TestWith (isIgnored : FilePath → GoString → TalismanRCIgnore → Bool)
    (d : PatternDetector) (additions : List Addition) (spec : TalismanRCIgnore)
    (results : DetectionResults) : DetectionResults :=
  additions.foldl
    (fun r addition =>
      d.patterns.foldl
        (fun r p =>
          (p.findAll addition.Data).foldl
            (fun r matchedText =>
              if isIgnored addition.Path (goStr "filecontent") spec then r
              else r.Fail addition.Path matchedText addition.Commits)
            r)
        r)
    results

/-- A sample pattern: the occurrence of a fixed text. -/
def literalPattern (needle : GoString) : SecretPattern where
  findAll := fun content => if needle <:+: content then [needle] else []
  isSubstring := by
    intro content t ht
    by_cases h : needle <:+: content
    · simp only [h, if_true, List.mem_singleton] at ht
      rw [ht]; exact h
    · simp [h] at ht

/-- A sample detector with a catalog of two patterns. -/
def sampleDetector : PatternDetector :=
  ⟨[literalPattern (goStr "password=somepassword"), literalPattern (goStr "BEGIN RSA")]⟩

/-- The addition of the spec's first scenario. -/
def passwordAddition : Addition :=
  NewAddition (goStr "secret.txt") (goStr "password=somepassword\n")

/-- A suppression spec with two entries for `secret.txt`, both with the checksum
of `sampleExternals`: the first lists the detector `filename`, the second the
detector `filecontent`. -/
def twoEntriesSpec : TalismanRCIgnore :=
  ⟨[⟨goStr "secret.txt",
      goStr "87139cc4d975333b25b6275f97680604add51b84eb8f4a3b9dcbbc652e6f27ac",
      some [goStr "filename"]⟩,
    ⟨goStr "secret.txt",
      goStr "87139cc4d975333b25b6275f97680604add51b84eb8f4a3b9dcbbc652e6f27ac",
      some [goStr "filecontent"]⟩]⟩

/-- A suppression spec whose one entry for `secret.txt` has the checksum of
`sampleExternals` and the detector `filecontent`. -/
def validSpec : TalismanRCIgnore :=
  ⟨[⟨goStr "secret.txt",
      goStr "87139cc4d975333b25b6275f97680604add51b84eb8f4a3b9dcbbc652e6f27ac",
      some [goStr "filecontent"]⟩]⟩

/-- The subsequence of first occurrences of a list: the entries that do not
occur at an earlier position, in their order. -/
def firstOccurrences (xs : List GoString) : List GoString :=
  (List.range xs.length).filterMap fun i =>
    match xs[i]? with
    | some x => if x ∈ xs.take i then none else some x
    | none => none

/-! ## Slices with their backing arrays

The definitions above take a slice as its contents. The definitions of this
section keep the backing arrays: a slice is a header into a heap of arrays, the
stored header of `Fail` is the header that the caller passed, and `append`
writes into the spare capacity of the array it is given. -/

/-- A Go slice header: the backing array (its index in the heap), the offset of
the slice in the array, the length and the capacity. -/
structure SliceHeader where
  arr : Nat
  off : Nat
  len : Nat
  cap : Nat
deriving DecidableEq, Repr

/-- Go `[]string` as a header; `none` is the nil slice. -/
abbrev MemSlice := Option SliceHeader

/-- The backing arrays, in the order of their allocation. -/
abbrev Heap := List (List GoString)

/-- Go `len(s)`. -/
def memLen : MemSlice → Nat
  | none => 0
  | some h => h.len

/-- Go `cap(s)`. -/
def memCap : MemSlice → Nat
  | none => 0
  | some h => h.cap

/-- The elements of a slice, read from its backing array. -/
def readSlice (heap : Heap) : MemSlice → List GoString
  | none => []
  | some h => ((heap.getD h.arr []).drop h.off).take h.len

/-- An array with the given elements written from position `p` on. -/
def writeAt (a : List GoString) (p : Nat) (elems : List GoString) : List GoString :=
  a.take p ++ elems ++ a.drop (p + elems.length)

/-- Go `append(s, elems...)`: when the capacity of `s` has room for the elements
they are written into the backing array of `s` behind its length, and the result
shares that array; else a new array is allocated, of a capacity that the
run-time system chooses (`grow`, at least the needed length). -/
def appendMem (grow : Nat → Nat → Nat) (heap : Heap) (s : MemSlice) (elems : List GoString) :
    Heap × MemSlice :=
  if memLen s + elems.length ≤ memCap s then
    match s with
    | none => (heap, none)
    | some h =>
      (heap.set h.arr (writeAt (heap.getD h.arr []) (h.off + h.len) elems),
        some { h with len := h.len + elems.length })
  else
    let needed := memLen s + elems.length
    let newcap := max needed (grow (memCap s) needed)
    (heap ++ [readSlice heap s ++ elems ++ List.replicate (newcap - needed) []],
      some ⟨heap.length, 0, needed, newcap⟩)

/-- Go `type FailureData struct`, with slice headers. -/
structure MemFailureData where
  FailuresInCommits : Option (GoMap GoString MemSlice)
deriving DecidableEq, Repr

/-- Go `type DetectionResults struct` with slice headers, and the heap that the
headers of the commit lists point into (the slices of the callers live in the
same heap). The lists of `ignores` are kept as contents: `Ignore` builds every
one of them itself and hands none out. -/
structure MemResults where
  heap : Heap
  Failures : GoMap FilePath (Option MemFailureData)
  ignores : GoMap FilePath GoSlice
deriving DecidableEq, Repr

/-- Go `NewDetectionResults`, with an empty heap. -/
def NewMemResults : MemResults := ⟨[], [], []⟩

/-- The caller's `make([]string, len, cap)` filled with the given elements (a
slice literal has `cap` equal to its length): a new array and its header. -/
def MemResults.make (r : MemResults) (elems : List GoString) (cap : Nat) :
    MemResults × MemSlice :=
  let c := max cap elems.length
  ({ r with heap := r.heap ++ [elems ++ List.replicate (c - elems.length) []] },
    some ⟨r.heap.length, 0, elems.length, c⟩)

/-- Go `(*DetectionResults).Fail`, with slice headers: a new message stores the
header `commits` of the caller, a recorded one stores `append(existing,
commits...)`. -/
def MemResults.Fail (grow : Nat → Nat → Nat) (r : MemResults) (filePath : FilePath)
    (message : GoString) (commits : MemSlice) : MemResults :=
  -- if r.Failures[filePath] == nil { r.Failures[filePath] = &FailureData{make(...)} }
  let failures1 : GoMap FilePath (Option MemFailureData) :=
    match (r.Failures.get? filePath).join with
    | none => r.Failures.set filePath (some ⟨some []⟩)
    | some _ => r.Failures
  let data1 : MemFailureData := ((failures1.get? filePath).join).getD ⟨some []⟩
  -- if r.Failures[filePath].FailuresInCommits == nil { ... = make(...) }
  let inner : GoMap GoString MemSlice :=
    match data1.FailuresInCommits with
    | none => []
    | some m => m
  -- existingCommits := r.Failures[filePath].FailuresInCommits[message]
  let existingCommits : MemSlice := (inner.get? message).join
  if memLen existingCommits = 0 then
    { r with Failures := failures1.set filePath (some ⟨some (inner.set message commits)⟩) }
  else
    let appended := appendMem grow r.heap ((inner.get? message).join) (readSlice r.heap commits)
    { r with
      heap := appended.1
      Failures := failures1.set filePath (some ⟨some (inner.set message appended.2)⟩) }

/-- The call `r.Fail(filePath, message, []string{elems...})`: the caller builds
the slice literal and passes it. -/
def MemResults.FailLiteral (grow : Nat → Nat → Nat) (r : MemResults) (filePath : FilePath)
    (message : GoString) (elems : List GoString) : MemResults :=
  let made := r.make elems elems.length
  made.1.Fail grow filePath message made.2

/-- The commit identifiers stored under a message of a file, read from the
heap. -/
def MemResults.commitsOf (r : MemResults) (filePath : FilePath) (message : GoString) :
    List GoString :=
  match (r.Failures.get? filePath).join with
  | some ⟨some m⟩ => readSlice r.heap (m.get? message).join
  | _ => []

/-- The message map of a file, with slice headers: empty when the file has no
failure data or its data holds the nil map. -/
def MemResults.messagesAt (r : MemResults) (filePath : FilePath) : GoMap GoString MemSlice :=
  match (r.Failures.get? filePath).join with
  | some ⟨some m⟩ => m
  | _ => []

/-- Whether the call `Fail(filePath, message, commits)` allocates no array: the
list recorded under the message is empty, or the capacity of its slice has room
for the commits. -/
def MemResults.noAllocation (r : MemResults) (filePath : FilePath) (message : GoString)
    (commits : MemSlice) : Bool :=
  decide (memLen ((r.messagesAt filePath).get? message).join = 0) ||
  decide (memLen ((r.messagesAt filePath).get? message).join + (readSlice r.heap commits).length
    ≤ memCap ((r.messagesAt filePath).get? message).join)

/-- The growth policy that allocates the needed length and no more. -/
def exactGrowth : Nat → Nat → Nat := fun _ needed => needed

/-- The caller's slice `commits := make([]string, 1, 4)` with
`commits[0] = "c1"`, in a fresh state. -/
def sharedCommits : MemResults × MemSlice :=
  NewMemResults.make [goStr "c1"] 4

/-- The state after `Fail("f", "m", commits)` and `Fail("g", "m", commits)` with
the caller's slice `sharedCommits`. -/
def sharedAcrossFiles (grow : Nat → Nat → Nat) : MemResults :=
  (sharedCommits.1.Fail grow (goStr "f") (goStr "m") sharedCommits.2).Fail grow
    (goStr "g") (goStr "m") sharedCommits.2

/-- The state after `Fail("f", "m1", commits)` and `Fail("f", "m2", commits)`
with the caller's slice `sharedCommits`. -/
def sharedAcrossMessages (grow : Nat → Nat → Nat) : MemResults :=
  (sharedCommits.1.Fail grow (goStr "f") (goStr "m1") sharedCommits.2).Fail grow
    (goStr "f") (goStr "m2") sharedCommits.2

set_option maxRecDepth 20000

/-! ## Lemmas on maps -/

namespace GoMap

variable {κ ν : Type} [DecidableEq κ]

theorem get?_set_self (m : GoMap κ ν) (k : κ) (v : ν) : (m.set k v).get? k = some v := by
  induction m with
  | nil => simp [set, get?]
  | cons e rest ih =>
    obtain ⟨k', v'⟩ := e
    by_cases h : k' = k <;> simp [set, get?, h, ih]

theorem get?_set_ne (m : GoMap κ ν) {k k' : κ} (v : ν) (h : k ≠ k') :
    (m.set k v).get? k' = m.get? k' := by
  induction m with
  | nil => simp [set, get?, h]
  | cons e rest ih =>
    obtain ⟨k0, v0⟩ := e
    by_cases h0 : k0 = k
    · subst h0; simp [set, get?, h]
    · by_cases h1 : k0 = k'
      · subst h1; simp [set, get?, h0]
      · simp [set, get?, h0, h1, ih]

theorem set_set (m : GoMap κ ν) (k : κ) (v w : ν) : (m.set k v).set k w = m.set k w := by
  induction m with
  | nil => simp [set]
  | cons e rest ih =>
    obtain ⟨k0, v0⟩ := e
    by_cases h0 : k0 = k <;> simp [set, h0, ih]

theorem set_ne_nil (m : GoMap κ ν) (k : κ) (v : ν) : m.set k v ≠ [] := by
  cases m with
  | nil => simp [set]
  | cons e rest =>
    obtain ⟨k0, v0⟩ := e
    by_cases h0 : k0 = k <;> simp [set, h0]

theorem mem_keys_iff (m : GoMap κ ν) (k : κ) : k ∈ m.keys ↔ (m.get? k).isSome = true := by
  induction m with
  | nil => simp [keys, get?]
  | cons e rest ih =>
    obtain ⟨k0, v0⟩ := e
    by_cases h0 : k0 = k
    · simp [keys, get?, h0]
    · have h1 : ¬ k = k0 := fun h => h0 h.symm
      simpa [keys, get?, h0, h1] using ih

theorem get?_eq_none_iff (m : GoMap κ ν) (k : κ) : m.get? k = none ↔ k ∉ m.keys := by
  rw [mem_keys_iff]; cases m.get? k <;> simp

theorem keys_set (m : GoMap κ ν) (k : κ) (v : ν) :
    (m.set k v).keys = if k ∈ m.keys then m.keys else m.keys ++ [k] := by
  induction m with
  | nil => simp [set, keys]
  | cons e rest ih =>
    obtain ⟨k0, v0⟩ := e
    by_cases h0 : k0 = k
    · simp [set, keys, h0]
    · have h1 : ¬ k = k0 := fun h => h0 h.symm
      have ih' := ih
      simp only [keys] at ih'
      by_cases hm : k ∈ List.map Prod.fst rest
      · simp [set, keys, h0, h1, hm, ih'] 
      · simp [set, keys, h0, h1, hm, ih']

theorem mem_keys_set (m : GoMap κ ν) (k k' : κ) (v : ν) :
    k' ∈ (m.set k v).keys ↔ k' = k ∨ k' ∈ m.keys := by
  rw [keys_set]
  by_cases hm : k ∈ m.keys
  · simp only [hm, if_true]
    constructor
    · exact fun h => Or.inr h
    · rintro (h | h)
      · exact h ▸ hm
      · exact h
  · simp [hm, or_comm]

theorem WF_set (m : GoMap κ ν) (k : κ) (v : ν) (h : m.WF) : (m.set k v).WF := by
  unfold WF at *
  rw [keys_set]
  by_cases hm : k ∈ m.keys
  · simpa [hm] using h
  · simp only [hm, if_false]
    exact List.Nodup.append h (List.nodup_singleton k) (by simpa using hm)

end GoMap

/-! ## Lemmas on Fail and Ignore -/

theorem Fail_ignores (r : DetectionResults) (f : FilePath) (m : GoString) (c : GoSlice) :
    (r.Fail f m c).ignores = r.ignores := rfl

theorem Ignore_Failures (r : DetectionResults) (f : FilePath) (d : GoString) :
    (r.Ignore f d).Failures = r.Failures := by
  unfold DetectionResults.Ignore
  cases r.ignores.get? f <;> rfl

theorem Fail_Failures (r : DetectionResults) (f : FilePath) (m : GoString) (c : GoSlice) :
    (r.Fail f m c).Failures =
      r.Failures.set f (some ⟨some ((messagesOf r f).set m
        (storedCommits (commitsIn (messagesOf r f) m) c))⟩) := by
  unfold DetectionResults.Fail messagesOf storedCommits
  cases h : failuresAt r f with
  | none =>
    simp [GoMap.get?_set_self, GoMap.set_set]
  | some fd =>
    obtain ⟨fm⟩ := fd
    have h' : (GoMap.get? r.Failures f).join = some ⟨fm⟩ := h
    simp only [h', Option.getD_some]
    cases fm <;> rfl

theorem Ignore_ignores (r : DetectionResults) (f : FilePath) (d : GoString) :
    (r.Ignore f d).ignores = r.ignores.set f (some (ignoresOf r f ++ [d])) := by
  unfold DetectionResults.Ignore ignoresOf
  cases h : r.ignores.get? f with
  | none => simp [GoSlice.elems]
  | some s => cases s <;> simp [GoSlice.append, GoSlice.elems]

theorem failuresAt_Fail_self (r : DetectionResults) (f : FilePath) (m : GoString)
    (c : GoSlice) :
    failuresAt (r.Fail f m c) f = some ⟨some ((messagesOf r f).set m
        (storedCommits (commitsIn (messagesOf r f) m) c))⟩ := by
  unfold failuresAt
  rw [Fail_Failures, GoMap.get?_set_self]; rfl

theorem failuresAt_Fail_ne (r : DetectionResults) {f f' : FilePath} (m : GoString)
    (c : GoSlice) (h : f ≠ f') : failuresAt (r.Fail f m c) f' = failuresAt r f' := by
  unfold failuresAt
  rw [Fail_Failures, GoMap.get?_set_ne _ _ h]

theorem failuresAt_Ignore (r : DetectionResults) (f f' : FilePath) (d : GoString) :
    failuresAt (r.Ignore f d) f' = failuresAt r f' := by
  unfold failuresAt; rw [Ignore_Failures]

theorem messagesOf_Fail_self (r : DetectionResults) (f : FilePath) (m : GoString)
    (c : GoSlice) :
    messagesOf (r.Fail f m c) f =
      (messagesOf r f).set m (storedCommits (commitsIn (messagesOf r f) m) c) := by
  conv_lhs => unfold messagesOf
  rw [failuresAt_Fail_self]

theorem messagesOf_Fail_ne (r : DetectionResults) {f f' : FilePath} (m : GoString)
    (c : GoSlice) (h : f ≠ f') : messagesOf (r.Fail f m c) f' = messagesOf r f' := by
  unfold messagesOf; rw [failuresAt_Fail_ne r m c h]

theorem messagesOf_Ignore (r : DetectionResults) (f f' : FilePath) (d : GoString) :
    messagesOf (r.Ignore f d) f' = messagesOf r f' := by
  unfold messagesOf; rw [failuresAt_Ignore]

theorem storedCommits_elems (existing commits : GoSlice) :
    (storedCommits existing commits).elems = existing.elems ++ commits.elems := by
  unfold storedCommits GoSlice.len
  by_cases h : existing.elems.length = 0
  · have h0 : existing.elems = [] := List.length_eq_zero.mp h
    simp [h0]
  · simp only [h, if_false]
    cases existing with
    | none => simp [GoSlice.elems] at h
    | some xs =>
      cases hc : commits.elems <;> simp [GoSlice.append, GoSlice.elems]

theorem ignoresOf_Ignore_self (r : DetectionResults) (f : FilePath) (d : GoString) :
    ignoresOf (r.Ignore f d) f = ignoresOf r f ++ [d] := by
  conv_lhs => unfold ignoresOf
  rw [Ignore_ignores, GoMap.get?_set_self]; rfl

theorem ignoresOf_Ignore_ne (r : DetectionResults) {f f' : FilePath} (d : GoString)
    (h : f ≠ f') : ignoresOf (r.Ignore f d) f' = ignoresOf r f' := by
  unfold ignoresOf
  rw [Ignore_ignores, GoMap.get?_set_ne _ _ h]

theorem ignoresOf_Fail (r : DetectionResults) (f f' : FilePath) (m : GoString) (c : GoSlice) :
    ignoresOf (r.Fail f m c) f' = ignoresOf r f' := rfl

theorem runCalls_cons (r : DetectionResults) (c : Call) (cs : List Call) :
    runCalls r (c :: cs) = runCalls (c.apply r) cs := rfl

theorem runCalls_append (r : DetectionResults) (cs ds : List Call) :
    runCalls r (cs ++ ds) = runCalls (runCalls r cs) ds := by
  simp [runCalls, List.foldl_append]

theorem HasFailures_Fail (r : DetectionResults) (f : FilePath) (m : GoString) (c : GoSlice) :
    (r.Fail f m c).HasFailures = true := by
  unfold DetectionResults.HasFailures
  rw [Fail_Failures]
  simpa [List.length_pos] using GoMap.set_ne_nil r.Failures f _

theorem HasFailures_runCalls (r : DetectionResults) (cs : List Call) :
    (runCalls r cs).HasFailures = (r.HasFailures || cs.any Call.isFail) := by
  induction cs generalizing r with
  | nil => simp [runCalls]
  | cons c cs ih =>
    rw [runCalls_cons, ih]
    cases c with
    | fail f m c => simp [Call.apply, Call.isFail, HasFailures_Fail]
    | ignore f d =>
      simp [Call.apply, Call.isFail, DetectionResults.HasFailures, Ignore_Failures]

theorem HasIgnores_runCalls (r : DetectionResults) (cs : List Call) :
    (runCalls r cs).HasIgnores = (r.HasIgnores || cs.any fun c => !c.isFail) := by
  induction cs generalizing r with
  | nil => simp [runCalls]
  | cons c cs ih =>
    rw [runCalls_cons, ih]
    cases c with
    | fail f m c => simp [Call.apply, Call.isFail, DetectionResults.HasIgnores, Fail_ignores]
    | ignore f d =>
      have h : (r.Ignore f d).HasIgnores = true := by
        unfold DetectionResults.HasIgnores
        rw [Ignore_ignores]
        simpa [List.length_pos] using GoMap.set_ne_nil r.ignores f _
      simp [Call.apply, Call.isFail, h]

theorem mem_Failures_keys_runCalls (r : DetectionResults) (cs : List Call) (f : FilePath) :
    f ∈ (runCalls r cs).Failures.keys ↔
      f ∈ r.Failures.keys ∨ ∃ m c, Call.fail f m c ∈ cs := by
  induction cs generalizing r with
  | nil => simp [runCalls]
  | cons c cs ih =>
    rw [runCalls_cons, ih]
    cases c with
    | fail f' m' c' =>
      simp only [Call.apply, Fail_Failures, GoMap.mem_keys_set, List.mem_cons, Call.fail.injEq]
      constructor
      · rintro ((h | h) | ⟨m, c, h⟩)
        · exact Or.inr ⟨m', c', Or.inl ⟨h, rfl, rfl⟩⟩
        · exact Or.inl h
        · exact Or.inr ⟨m, c, Or.inr h⟩
      · rintro (h | ⟨m, c, h | h⟩)
        · exact Or.inl (Or.inr h)
        · exact Or.inl (Or.inl h.1)
        · exact Or.inr ⟨m, c, h⟩
    | ignore f' d' =>
      simp [Call.apply, Ignore_Failures]

theorem failuresAt_runCalls_ne_none (r : DetectionResults) (cs : List Call) (f : FilePath) :
    failuresAt (runCalls r cs) f ≠ none ↔
      failuresAt r f ≠ none ∨ ∃ m c, Call.fail f m c ∈ cs := by
  induction cs generalizing r with
  | nil => simp [runCalls]
  | cons c cs ih =>
    rw [runCalls_cons, ih]
    cases c with
    | fail f' m' c' =>
      by_cases hf : f' = f
      · subst hf
        simp only [Call.apply, failuresAt_Fail_self]
        constructor
        · intro _; exact Or.inr ⟨m', c', List.mem_cons_self _ _⟩
        · intro _; exact Or.inl (by simp)
      · have hf' : ¬ f = f' := fun h => hf h.symm
        simp [Call.apply, failuresAt_Fail_ne r m' c' hf, hf']
    | ignore f' d' =>
      simp [Call.apply, failuresAt_Ignore]

theorem mem_ignores_keys_runCalls (r : DetectionResults) (cs : List Call) (f : FilePath) :
    f ∈ (runCalls r cs).ignores.keys ↔
      f ∈ r.ignores.keys ∨ ∃ d, Call.ignore f d ∈ cs := by
  induction cs generalizing r with
  | nil => simp [runCalls]
  | cons c cs ih =>
    rw [runCalls_cons, ih]
    cases c with
    | fail f' m' c' =>
      simp [Call.apply, Fail_ignores]
    | ignore f' d' =>
      simp only [Call.apply, Ignore_ignores, GoMap.mem_keys_set, List.mem_cons,
        Call.ignore.injEq]
      constructor
      · rintro ((h | h) | ⟨d, h⟩)
        · exact Or.inr ⟨d', Or.inl ⟨h, rfl⟩⟩
        · exact Or.inl h
        · exact Or.inr ⟨d, Or.inr h⟩
      · rintro (h | ⟨d, h | h⟩)
        · exact Or.inl (Or.inr h)
        · exact Or.inl (Or.inl h.1)
        · exact Or.inr ⟨d, h⟩

theorem ignoresOf_runCalls (r : DetectionResults) (cs : List Call) (f : FilePath) :
    ignoresOf (runCalls r cs) f = ignoresOf r f ++ ignoreDetectors f cs := by
  induction cs generalizing r with
  | nil => simp [runCalls, ignoreDetectors]
  | cons c cs ih =>
    rw [runCalls_cons, ih]
    cases c with
    | fail f' m' c' =>
      simp [Call.apply, ignoresOf_Fail, ignoreDetectors]
    | ignore f' d' =>
      by_cases hf : f' = f
      · subst hf
        simp [Call.apply, ignoresOf_Ignore_self, ignoreDetectors]
      · simp [Call.apply, ignoresOf_Ignore_ne r d' hf, ignoreDetectors, hf]

theorem mem_failMessages (cs : List Call) (f : FilePath) (m : GoString) :
    m ∈ failMessages f cs ↔ ∃ c, Call.fail f m c ∈ cs := by
  unfold failMessages
  rw [List.mem_filterMap]
  constructor
  · rintro ⟨call, hmem, h⟩
    cases call with
    | fail f' m' c' =>
      by_cases hf : f' = f
      · simp only [hf, if_true, Option.some.injEq] at h
        subst hf; subst h
        exact ⟨c', hmem⟩
      · simp [hf] at h
    | ignore f' d' => simp at h
  · rintro ⟨c, hmem⟩
    exact ⟨_, hmem, by simp⟩

theorem failMessages_ne_nil_iff (cs : List Call) (f : FilePath) :
    failMessages f cs ≠ [] ↔ ∃ m c, Call.fail f m c ∈ cs := by
  constructor
  · intro h
    obtain ⟨m, hm⟩ := List.exists_mem_of_ne_nil _ h
    exact ⟨m, (mem_failMessages cs f m).mp hm⟩
  · rintro ⟨m, c, h⟩
    exact List.ne_nil_of_mem ((mem_failMessages cs f m).mpr ⟨c, h⟩)

theorem failMessages_cons_fail (cs : List Call) (f f' : FilePath) (m : GoString)
    (c : GoSlice) :
    failMessages f (Call.fail f' m c :: cs) =
      if f' = f then m :: failMessages f cs else failMessages f cs := by
  by_cases hf : f' = f <;> simp [failMessages, List.filterMap_cons, hf]

theorem failMessages_cons_ignore (cs : List Call) (f f' : FilePath) (d : GoString) :
    failMessages f (Call.ignore f' d :: cs) = failMessages f cs := by
  simp [failMessages, List.filterMap_cons]

theorem WF_messagesOf_runCalls (r : DetectionResults) (cs : List Call) (f : FilePath)
    (h : (messagesOf r f).WF) : (messagesOf (runCalls r cs) f).WF := by
  induction cs generalizing r with
  | nil => simpa [runCalls] using h
  | cons c cs ih =>
    rw [runCalls_cons]
    apply ih
    cases c with
    | fail f' m' c' =>
      by_cases hf : f' = f
      · subst hf
        simp only [Call.apply, messagesOf_Fail_self]
        exact GoMap.WF_set _ _ _ h
      · simpa [Call.apply, messagesOf_Fail_ne r m' c' hf] using h
    | ignore f' d' => simpa [Call.apply, messagesOf_Ignore] using h

theorem mem_messagesOf_keys_runCalls (r : DetectionResults) (cs : List Call) (f : FilePath)
    (m : GoString) :
    m ∈ (messagesOf (runCalls r cs) f).keys ↔
      m ∈ (messagesOf r f).keys ∨ m ∈ failMessages f cs := by
  induction cs generalizing r with
  | nil => simp [runCalls, failMessages]
  | cons c cs ih =>
    rw [runCalls_cons, ih]
    cases c with
    | fail f' m' c' =>
      by_cases hf : f' = f
      · subst hf
        simp only [Call.apply, messagesOf_Fail_self, GoMap.mem_keys_set,
          failMessages_cons_fail, if_true, List.mem_cons]
        tauto
      · simp [Call.apply, messagesOf_Fail_ne r m' c' hf, failMessages_cons_fail, hf]
    | ignore f' d' =>
      simp [Call.apply, messagesOf_Ignore, failMessages_cons_ignore]

theorem failuresAt_runCalls_eq (r : DetectionResults) (cs : List Call) (f : FilePath)
    (h : failuresAt r f = some ⟨some (messagesOf r f)⟩ ∨ ∃ m c, Call.fail f m c ∈ cs) :
    failuresAt (runCalls r cs) f = some ⟨some (messagesOf (runCalls r cs) f)⟩ := by
  induction cs generalizing r with
  | nil =>
    rcases h with h | ⟨m, c, h⟩
    · simpa [runCalls] using h
    · simp at h
  | cons c cs ih =>
    rw [runCalls_cons]
    apply ih
    cases c with
    | fail f' m' c' =>
      by_cases hf : f' = f
      · subst hf
        left
        simp only [Call.apply, messagesOf_Fail_self, failuresAt_Fail_self]
      · rcases h with h | ⟨m, c, h⟩
        · left
          simpa [Call.apply, messagesOf_Fail_ne r m' c' hf, failuresAt_Fail_ne r m' c' hf]
            using h
        · right
          simp only [List.mem_cons, Call.fail.injEq] at h
          rcases h with h | h
          · exact absurd h.1.symm hf
          · exact ⟨m, c, h⟩
    | ignore f' d' =>
      rcases h with h | ⟨m, c, h⟩
      · left
        simpa [Call.apply, messagesOf_Ignore, failuresAt_Ignore] using h
      · right
        simp only [List.mem_cons] at h
        rcases h with h | h
        · cases h
        · exact ⟨m, c, h⟩

/-! ## Lemmas on the report -/

theorem GoMap.mem_of_get? {κ ν : Type} [DecidableEq κ] (m : GoMap κ ν) (k : κ) (v : ν)
    (h : m.get? k = some v) : (k, v) ∈ m := by
  induction m with
  | nil => simp [GoMap.get?] at h
  | cons e rest ih =>
    obtain ⟨k0, v0⟩ := e
    by_cases h0 : k0 = k
    · simp only [GoMap.get?, h0, if_true, Option.some.injEq] at h
      subst h0; subst h
      exact List.mem_cons_self _ _
    · simp only [GoMap.get?, h0, if_false] at h
      exact List.mem_cons_of_mem _ (ih h)

theorem failuresAt_ne_none_of_mem (r : DetectionResults) (h : NoNilFailures r) (f : FilePath)
    (hf : f ∈ r.Failures.keys) : failuresAt r f ≠ none := by
  rw [GoMap.mem_keys_iff] at hf
  unfold failuresAt
  cases hg : r.Failures.get? f with
  | none => rw [hg] at hf; simp at hf
  | some v =>
    have := h _ (GoMap.mem_of_get? _ _ _ hg)
    cases v with
    | none => exact absurd rfl this
    | some fd => simp

theorem unique_fold_spec (xs : List GoString) (km : GoMap GoString Bool) (l : List GoString)
    (hk : km.keys = l) (hl : l.Nodup) :
    let out := xs.foldl
      (fun (st : GoMap GoString Bool × List GoString) entry =>
        match st.1.get? entry with
        | some _ => st
        | none => (st.1.set entry true, st.2 ++ [entry]))
      (km, l)
    out.2.Nodup ∧ ∀ a, a ∈ out.2 ↔ a ∈ l ∨ a ∈ xs := by
  induction xs generalizing km l with
  | nil => simpa using hl
  | cons e rest ih =>
    simp only [List.foldl_cons]
    cases hg : km.get? e with
    | some b =>
      have he : e ∈ l := by
        rw [← hk, GoMap.mem_keys_iff, hg]; rfl
      obtain ⟨h1, h2⟩ := ih km l hk hl
      refine ⟨h1, fun a => ?_⟩
      rw [h2 a, List.mem_cons]
      constructor
      · rintro (h | h)
        · exact Or.inl h
        · exact Or.inr (Or.inr h)
      · rintro (h | h | h)
        · exact Or.inl h
        · exact Or.inl (h ▸ he)
        · exact Or.inr h
    | none =>
      have he : e ∉ l := by
        rw [← hk]; exact (GoMap.get?_eq_none_iff _ _).mp hg
      have hk' : (km.set e true).keys = l ++ [e] := by
        rw [GoMap.keys_set, hk]; simp [he]
      have hl' : (l ++ [e]).Nodup :=
        List.Nodup.append hl (List.nodup_singleton e) (by simpa using he)
      obtain ⟨h1, h2⟩ := ih (km.set e true) (l ++ [e]) hk' hl'
      refine ⟨h1, fun a => ?_⟩
      rw [h2 a, List.mem_cons, List.mem_append, List.mem_singleton]
      tauto

theorem unique_nodup (xs : List GoString) : (unique xs).Nodup :=
  (unique_fold_spec xs [] [] rfl List.nodup_nil).1

theorem mem_unique (xs : List GoString) (a : GoString) : a ∈ unique xs ↔ a ∈ xs := by
  have := (unique_fold_spec xs [] [] rfl List.nodup_nil).2 a
  simpa using this

theorem rows_fold (f : FilePath) (m : GoMap GoString GoSlice) (init : List (List GoString)) :
    m.foldl (fun data e => data ++ [[f, wrapMessage e.1]]) init =
      init ++ m.keys.map (fun msg => [f, wrapMessage msg]) := by
  induction m generalizing init with
  | nil => simp [GoMap.keys]
  | cons e rest ih =>
    rw [List.foldl_cons, ih]
    simp [GoMap.keys]

theorem ReportFileFailures_of_some (r : DetectionResults) (f : FilePath) (fd : FailureData)
    (h : failuresAt r f = some fd) :
    r.ReportFileFailures f = some (fd.messages.map fun msg => [f, wrapMessage msg]) := by
  unfold DetectionResults.ReportFileFailures FailureData.messages
  rw [h]
  obtain ⟨fm⟩ := fd
  cases fm with
  | none => rfl
  | some m =>
    cases m with
    | nil => rfl
    | cons e rest =>
      simp only [List.length_cons, gt_iff_lt, Nat.zero_lt_succ, if_true]
      rw [rows_fold]; rfl

theorem messagesOf_eq (r : DetectionResults) (f : FilePath) (fd : FailureData)
    (h : failuresAt r f = some fd) : (messagesOf r f).keys = fd.messages := by
  unfold messagesOf FailureData.messages
  rw [h]
  obtain ⟨fm⟩ := fd
  cases fm <;> rfl

theorem ReportFileFailures_of_mem (r : DetectionResults) (h : NoNilFailures r) (f : FilePath)
    (hf : f ∈ r.Failures.keys) :
    r.ReportFileFailures f =
      some ((messagesOf r f).keys.map fun msg => [f, wrapMessage msg]) := by
  cases hfd : failuresAt r f with
  | none => exact absurd hfd (failuresAt_ne_none_of_mem r h f hf)
  | some fd => rw [ReportFileFailures_of_some r f fd hfd, messagesOf_eq r f fd hfd]

theorem collectFailures_spec (r : DetectionResults) (h : NoNilFailures r)
    (m : GoMap FilePath (Option FailureData)) (hm : ∀ k ∈ m.keys, k ∈ r.Failures.keys)
    (st : List GoString × List (List GoString)) :
    collectFailures r m st =
      some (st.1 ++ m.keys, st.2 ++ m.keys.flatMap fun k =>
        (messagesOf r k).keys.map fun msg => [k, wrapMessage msg]) := by
  induction m generalizing st with
  | nil => simp [collectFailures, GoMap.keys]
  | cons e rest ih =>
    obtain ⟨k, v⟩ := e
    have hk : k ∈ r.Failures.keys := hm k (by simp [GoMap.keys])
    have hrest : ∀ k' ∈ GoMap.keys rest, k' ∈ r.Failures.keys := by
      intro k' hk'
      apply hm
      simp only [GoMap.keys, List.map_cons, List.mem_cons]
      exact Or.inr hk'
    simp only [collectFailures, ReportFileFailures_of_mem r h k hk]
    rw [ih hrest]
    simp [GoMap.keys, List.flatMap_cons]

theorem ignores_fold (m : GoMap FilePath GoSlice) (init : List GoString) :
    m.foldl (fun acc e => acc ++ [e.1]) init = init ++ m.keys := by
  induction m generalizing init with
  | nil => simp [GoMap.keys]
  | cons e rest ih =>
    rw [List.foldl_cons, ih]
    simp [GoMap.keys]

theorem suggestTalismanRC_eq (x : Externals) (filePaths : List GoString) :
    suggestTalismanRC x filePaths = x.yamlMarshal ⟨suggestedEntries x filePaths⟩ := by
  unfold suggestTalismanRC suggestedEntries
  have key : ∀ (init : List FileIgnoreConfig),
      filePaths.foldl
        (fun acc filePath => acc ++ [⟨filePath, x.CalculateCollectiveHash [filePath], some []⟩])
        init
      = init ++ filePaths.map
          (fun filePath => ⟨filePath, x.CalculateCollectiveHash [filePath], some []⟩) := by
    induction filePaths with
    | nil => simp
    | cons p rest ih => intro init; rw [List.foldl_cons, ih]; simp
  simp only [key, List.nil_append]

theorem Report_of_failures (x : Externals) (r : DetectionResults) (h : NoNilFailures r)
    (hf : r.HasFailures = true) :
    r.Report x = some
      ⟨suggestionHint ++ x.yamlMarshal
          ⟨suggestedEntries x (unique (r.Failures.keys ++ r.ignores.keys))⟩ ++ goStr "\n\n",
        some (r.Failures.keys.flatMap fun k =>
          (messagesOf r k).keys.map fun msg => [k, wrapMessage msg])⟩ := by
  unfold DetectionResults.Report
  rw [collectFailures_spec r h r.Failures (fun _ hk => hk)]
  have hlen : r.Failures.length > 0 := by
    simpa [DetectionResults.HasFailures] using hf
  simp only [ignores_fold, hlen, if_true, suggestTalismanRC_eq, List.nil_append]

theorem NoNilFailures_runCalls (r : DetectionResults) (cs : List Call)
    (h : NoNilFailures r) : NoNilFailures (runCalls r cs) := by
  induction cs generalizing r with
  | nil => simpa [runCalls] using h
  | cons c cs ih =>
    rw [runCalls_cons]
    apply ih
    cases c with
    | fail f m c =>
      intro e he
      simp only [Call.apply, Fail_Failures] at he
      have key : ∀ (l : GoMap FilePath (Option FailureData)) (v : FailureData),
          (∀ e ∈ l, e.2 ≠ none) → ∀ e ∈ GoMap.set l f (some v), e.2 ≠ none := by
        intro l v
        induction l with
        | nil => intro _ e he; simp [GoMap.set] at he; subst he; simp
        | cons a rest ihl =>
          obtain ⟨k0, v0⟩ := a
          intro hl e he
          by_cases h0 : k0 = f
          · simp only [GoMap.set, h0, if_true, List.mem_cons] at he
            rcases he with he | he
            · subst he; simp
            · exact hl e (List.mem_cons_of_mem _ he)
          · simp only [GoMap.set, h0, if_false, List.mem_cons] at he
            rcases he with he | he
            · subst he; exact hl _ (List.mem_cons_self _ _)
            · exact ihl (fun e he => hl e (List.mem_cons_of_mem _ he)) e he
      exact key r.Failures _ h e he
    | ignore f d =>
      intro e he
      simp only [Call.apply, Ignore_Failures] at he
      exact h e he

theorem Report_of_no_failures (x : Externals) (r : DetectionResults) (h : r.Failures = []) :
    r.Report x = some ⟨[], none⟩ := by
  unfold DetectionResults.Report
  rw [h]
  simp [collectFailures]

theorem messages_length_runCalls (cs : List Call) (f : FilePath) :
    (messagesOf (runCalls NewDetectionResults cs) f).keys.length
      = (failMessages f cs).dedup.length := by
  have hnew : messagesOf NewDetectionResults f = [] := rfl
  have hnd : (messagesOf (runCalls NewDetectionResults cs) f).keys.Nodup :=
    WF_messagesOf_runCalls NewDetectionResults cs f (by rw [hnew]; exact List.nodup_nil)
  apply List.Perm.length_eq
  rw [List.perm_ext_iff_of_nodup hnd (List.nodup_dedup _)]
  intro m
  rw [mem_messagesOf_keys_runCalls, hnew, List.mem_dedup]
  simp [GoMap.keys]

/-! ## Lemmas on slices with backing arrays -/

theorem appendMem_fits (grow grow' : Nat → Nat → Nat) (heap : Heap) (s : MemSlice)
    (elems : List GoString) (h : memLen s + elems.length ≤ memCap s) :
    appendMem grow heap s elems = appendMem grow' heap s elems := by
  unfold appendMem
  simp only [h, if_true]

theorem MemFail_eq (grow : Nat → Nat → Nat) (r : MemResults) (f : FilePath) (m : GoString)
    (c : MemSlice) :
    r.Fail grow f m c =
      if memLen ((r.messagesAt f).get? m).join = 0 then
        { r with Failures := r.Failures.set f (some ⟨some ((r.messagesAt f).set m c)⟩) }
      else
        { r with
          heap := (appendMem grow r.heap ((r.messagesAt f).get? m).join
            (readSlice r.heap c)).1
          Failures := r.Failures.set f (some ⟨some ((r.messagesAt f).set m
            (appendMem grow r.heap ((r.messagesAt f).get? m).join (readSlice r.heap c)).2)⟩) } := by
  unfold MemResults.Fail MemResults.messagesAt
  cases h : (r.Failures.get? f).join with
  | none =>
    simp [GoMap.get?_set_self, GoMap.set_set, GoMap.get?, memLen]
  | some fd =>
    obtain ⟨fm⟩ := fd
    simp only [h, Option.getD_some]
    cases fm <;> rfl

theorem Fail_grow (grow grow' : Nat → Nat → Nat) (r : MemResults) (f : FilePath)
    (m : GoString) (c : MemSlice) (h : r.noAllocation f m c = true) :
    r.Fail grow f m c = r.Fail grow' f m c := by
  rw [MemFail_eq grow, MemFail_eq grow']
  by_cases h0 : memLen ((r.messagesAt f).get? m).join = 0
  · simp only [h0, if_true]
  · simp only [h0, if_false]
    have hfit : memLen ((r.messagesAt f).get? m).join + (readSlice r.heap c).length
        ≤ memCap ((r.messagesAt f).get? m).join := by
      unfold MemResults.noAllocation at h
      rw [Bool.or_eq_true, decide_eq_true_eq, decide_eq_true_eq] at h
      exact h.resolve_left h0
    rw [appendMem_fits grow grow' _ _ _ hfit]

theorem Fail_grow_eq {grow : Nat → Nat → Nat} {r r' : MemResults} {f : FilePath}
    {m : GoString} {c : MemSlice} (hr : r = r') (h : r'.noAllocation f m c = true) :
    r.Fail grow f m c = r'.Fail exactGrowth f m c := by
  subst hr
  exact Fail_grow grow exactGrowth r f m c h

theorem FailLiteral_grow_eq {grow : Nat → Nat → Nat} {r r' : MemResults} {f : FilePath}
    {m : GoString} {elems : List GoString} (hr : r = r')
    (h : (r'.make elems elems.length).1.noAllocation f m (r'.make elems elems.length).2
      = true) :
    r.FailLiteral grow f m elems = r'.FailLiteral exactGrowth f m elems := by
  subst hr
  exact Fail_grow grow exactGrowth _ f m _ h

theorem sharedAcrossFiles_grow (grow : Nat → Nat → Nat) :
    sharedAcrossFiles grow = sharedAcrossFiles exactGrowth := by
  unfold sharedAcrossFiles
  exact Fail_grow_eq (Fail_grow_eq rfl (by decide)) (by decide)

theorem sharedAcrossMessages_grow (grow : Nat → Nat → Nat) :
    sharedAcrossMessages grow = sharedAcrossMessages exactGrowth := by
  unfold sharedAcrossMessages
  exact Fail_grow_eq (Fail_grow_eq rfl (by decide)) (by decide)

/-! ## The verdict -/

/-- C1: on a fresh result, after any sequence of `Fail` and `Ignore` calls,
`Successful()` holds exactly when the sequence has no `Fail` call, and
`HasFailures()` is its negation; a new result is successful, one more `Fail`
call (any file, message and commits) makes the result unsuccessful, and one more
`Ignore` call leaves the verdict as it is. -/
theorem C1_successful_iff_no_fail (cs : List Call) :
    ((runCalls NewDetectionResults cs).Successful = true ↔ cs.any Call.isFail = false) ∧
    (runCalls NewDetectionResults cs).HasFailures
      = !(runCalls NewDetectionResults cs).Successful ∧
    NewDetectionResults.Successful = true ∧
    (∀ f m c, ((runCalls NewDetectionResults cs).Fail f m c).Successful = false) ∧
    (∀ f d, ((runCalls NewDetectionResults cs).Ignore f d).Successful
      = (runCalls NewDetectionResults cs).Successful) := by
  refine ⟨?_, ?_, rfl, ?_, ?_⟩
  · unfold DetectionResults.Successful
    rw [HasFailures_runCalls]
    simp [NewDetectionResults, DetectionResults.HasFailures]
  · simp [DetectionResults.Successful]
  · intro f m c
    simp [DetectionResults.Successful, HasFailures_Fail]
  · intro f d
    simp [DetectionResults.Successful, DetectionResults.HasFailures, Ignore_Failures]

/-! ## Accumulation of failures -/

/-- C2: in every state, after `Fail(f, m, c)` the commits stored under message
`m` of file `f` are the ones stored before (none when `m` was not recorded for
`f`) followed by `c`, duplicates kept; when `m` was not recorded for `f`, the
calls `Fail(f, m, c1)` and `Fail(f, m, c2)` leave `c1 ++ c2` under the one key
`m`. -/
theorem C2_fail_appends_commits (r : DetectionResults) (f : FilePath) (m : GoString)
    (c1 c2 : GoSlice) :
    commitsOf (r.Fail f m c1) f m = commitsOf r f m ++ c1.elems ∧
    (m ∉ (messagesOf r f).keys →
      commitsOf r f m = [] ∧
      commitsOf ((r.Fail f m c1).Fail f m c2) f m = c1.elems ++ c2.elems ∧
      (messagesOf ((r.Fail f m c1).Fail f m c2) f).keys.count m = 1) := by
  have step : ∀ (r : DetectionResults) (c : GoSlice),
      commitsOf (r.Fail f m c) f m = commitsOf r f m ++ c.elems := by
    intro r c
    unfold commitsOf
    rw [messagesOf_Fail_self]
    unfold commitsIn
    rw [GoMap.get?_set_self]
    exact storedCommits_elems _ _
  refine ⟨step r c1, fun hm => ?_⟩
  have h0 : commitsOf r f m = [] := by
    unfold commitsOf commitsIn
    rw [(GoMap.get?_eq_none_iff _ _).mpr hm]; rfl
  refine ⟨h0, ?_, ?_⟩
  · rw [step, step, h0]; simp
  · rw [messagesOf_Fail_self, messagesOf_Fail_self, GoMap.keys_set, GoMap.keys_set]
    simp [hm, List.count_eq_zero_of_not_mem hm]

/-- C2, at a concrete state: `Bomb` is not recorded for `a`, and two `Fail` calls
leave both commit lists under it. -/
theorem C2_fail_appends_commits_witness :
    commitsOf ((NewDetectionResults.Fail [97] (goStr "Bomb") (some [[1], [2]])).Fail
        [97] (goStr "Bomb") (some [[2], [3]])) [97] (goStr "Bomb") = [[1], [2], [2], [3]] ∧
    (messagesOf ((NewDetectionResults.Fail [97] (goStr "Bomb") (some [[1], [2]])).Fail
        [97] (goStr "Bomb") (some [[2], [3]])) [97]).keys.count (goStr "Bomb") = 1 :=
  ((C2_fail_appends_commits NewDetectionResults [97] (goStr "Bomb") (some [[1], [2]])
    (some [[2], [3]])).2 (by decide)).2

/-- C3: on a fresh result, after any sequence of calls, a file that some `Fail`
call named has failure data whose message keys are pairwise distinct and are
exactly the messages passed to `Fail` for that file (so there are as many keys
as distinct messages, whatever the commit lists were), and a file that no `Fail`
call named has no failure data. -/
theorem C3_message_keys (cs : List Call) (f : FilePath) :
    (failMessages f cs = [] → (runCalls NewDetectionResults cs).GetFailures f = none) ∧
    (failMessages f cs ≠ [] →
      ∃ msgs, (runCalls NewDetectionResults cs).GetFailures f = some ⟨some msgs⟩ ∧
        msgs.keys.Nodup ∧
        (∀ m, m ∈ msgs.keys ↔ m ∈ failMessages f cs) ∧
        msgs.keys.length = (failMessages f cs).dedup.length) := by
  have hnew : messagesOf NewDetectionResults f = [] := rfl
  constructor
  · intro h
    by_contra hne
    have := (failuresAt_runCalls_ne_none NewDetectionResults cs f).mp hne
    rcases this with h0 | h1
    · exact h0 rfl
    · exact (failMessages_ne_nil_iff cs f).mpr h1 h
  · intro h
    have hcall := (failMessages_ne_nil_iff cs f).mp h
    have hnd : (messagesOf (runCalls NewDetectionResults cs) f).keys.Nodup :=
      WF_messagesOf_runCalls NewDetectionResults cs f (by rw [hnew]; exact List.nodup_nil)
    have hmem : ∀ m, m ∈ (messagesOf (runCalls NewDetectionResults cs) f).keys ↔
        m ∈ failMessages f cs := by
      intro m
      rw [mem_messagesOf_keys_runCalls, hnew]
      simp [GoMap.keys]
    exact ⟨_, failuresAt_runCalls_eq NewDetectionResults cs f (Or.inr hcall), hnd, hmem,
      messages_length_runCalls cs f⟩

/-- C3, on the calls of the repository's test: two keys for `some_filename`. -/
theorem C3_message_keys_witness :
    failMessages (goStr "some_filename") multipleErrorsCalls ≠ [] ∧
    ∃ msgs, (runCalls NewDetectionResults multipleErrorsCalls).GetFailures
        (goStr "some_filename") = some ⟨some msgs⟩ ∧
      msgs.keys.Nodup ∧
      (∀ m, m ∈ msgs.keys ↔ m ∈ failMessages (goStr "some_filename") multipleErrorsCalls) ∧
      msgs.keys.length = 2 :=
  ⟨by decide,
   (C3_message_keys multipleErrorsCalls (goStr "some_filename")).2 (by decide)⟩

/-- C4: on a fresh result, after any sequence of `Fail` and `Ignore` calls, a
file is a key of `Failures` exactly when some `Fail` call named it, and then
and only then `GetFailures` is non-nil for it; it is a key of `ignores` exactly
when some `Ignore` call named it. -/
theorem C4_entries_iff_calls (cs : List Call) (f : FilePath) :
    (f ∈ (runCalls NewDetectionResults cs).Failures.keys ↔ ∃ m c, Call.fail f m c ∈ cs) ∧
    ((runCalls NewDetectionResults cs).GetFailures f ≠ none ↔ ∃ m c, Call.fail f m c ∈ cs) ∧
    (f ∈ (runCalls NewDetectionResults cs).ignores.keys ↔ ∃ d, Call.ignore f d ∈ cs) := by
  refine ⟨?_, ?_, ?_⟩
  · rw [mem_Failures_keys_runCalls]; simp [NewDetectionResults, GoMap.keys]
  · unfold DetectionResults.GetFailures
    rw [failuresAt_runCalls_ne_none]
    simp [NewDetectionResults, failuresAt, GoMap.get?]
  · rw [mem_ignores_keys_runCalls]; simp [NewDetectionResults, GoMap.keys]

/-- C5: in every state, `Ignore(f, d)` stores for `f` its previous detector names
(none when `f` had no entry) followed by `d`; on a fresh result the names stored
for `f` after any sequence of calls are the ones passed to `Ignore` for `f`, in
call order and with duplicates, and `HasIgnores()` holds exactly when the
sequence has an `Ignore` call. -/
theorem C5_ignore_appends (r : DetectionResults) (f : FilePath) (d : GoString)
    (ds : List GoString) (cs : List Call) :
    (r.Ignore f d).ignores.get? f = some (some (ignoresOf r f ++ [d])) ∧
    (f ∉ r.ignores.keys → ignoresOf r f = []) ∧
    ignoresOf (runCalls NewDetectionResults (ds.map (Call.ignore f))) f = ds ∧
    ignoresOf (runCalls NewDetectionResults cs) f = ignoreDetectors f cs ∧
    ((runCalls NewDetectionResults cs).HasIgnores = true ↔
      (cs.any fun c => !c.isFail) = true) := by
  refine ⟨?_, ?_, ?_, ?_, ?_⟩
  · rw [Ignore_ignores, GoMap.get?_set_self]
  · intro h
    unfold ignoresOf
    rw [(GoMap.get?_eq_none_iff _ _).mpr h]; rfl
  · rw [ignoresOf_runCalls]
    have : ignoreDetectors f (ds.map (Call.ignore f)) = ds := by
      induction ds with
      | nil => rfl
      | cons a rest ih =>
        simp only [ignoreDetectors] at ih
        simp [ignoreDetectors, List.filterMap_cons, ih]
    rw [this]; rfl
  · rw [ignoresOf_runCalls]; rfl
  · rw [HasIgnores_runCalls]
    simp [NewDetectionResults, DetectionResults.HasIgnores]

/-- C5, on a fresh result: two `Ignore` calls for one file. -/
theorem C5_ignore_appends_witness :
    ignoresOf NewDetectionResults (goStr "some_file") = [] ∧
    ((NewDetectionResults.Ignore (goStr "some_file") (goStr "some-detector")).Ignore
      (goStr "some_file") (goStr "some-detector")).ignores
      = [(goStr "some_file", some [goStr "some-detector", goStr "some-detector"])] :=
  ⟨(C5_ignore_appends NewDetectionResults (goStr "some_file") (goStr "some-detector")
      [] []).2.1 (by decide), by decide⟩

/-! ## The report -/

/-- C6: in every state whose `Failures` map is empty, whatever its ignores,
`Report()` returns the empty string (and prints nothing), so the string holds
no `fileignoreconfig:` header. -/
theorem C6_report_empty_without_failures (x : Externals) (r : DetectionResults)
    (h : r.Failures = []) :
    ∃ out, r.Report x = some out ∧ out.result = [] ∧ out.stdout = none ∧
      ¬ goStr "fileignoreconfig:" <:+: out.result := by
  refine ⟨⟨[], none⟩, ?_, rfl, rfl, ?_⟩
  · exact Report_of_no_failures x r h
  · intro hin
    have := List.IsInfix.length_le hin
    simp [goStr, String.utf8EncodeChar] at this

/-- C6, on a state with two ignored files and no failure. -/
theorem C6_report_empty_without_failures_witness :
    ignoredOnlyResults.HasIgnores = true ∧
    ∃ out, ignoredOnlyResults.Report sampleExternals = some out ∧ out.result = [] ∧
      out.stdout = none ∧ ¬ goStr "fileignoreconfig:" <:+: out.result :=
  ⟨by decide, C6_report_empty_without_failures sampleExternals ignoredOnlyResults (by decide)⟩

/-- C7: in every state with at least one failure (and no nil entry in
`Failures`), the string that `Report()` returns holds the serialization of a
suppression list with exactly one entry for each file path that occurs in
`Failures` or in `ignores`; every entry has that path as file name, the
collective hash of the one-element list of that path as checksum, and an empty
list of ignored detectors. -/
theorem C7_report_suggests_entries (x : Externals) (r : DetectionResults)
    (hf : r.HasFailures = true) (hn : NoNilFailures r) :
    ∃ out entries, r.Report x = some out ∧
      out.result = suggestionHint ++ x.yamlMarshal ⟨entries⟩ ++ goStr "\n\n" ∧
      x.yamlMarshal ⟨entries⟩ <:+: out.result ∧
      (entries.map fun e => e.FileName).Nodup ∧
      (∀ p, p ∈ (entries.map fun e => e.FileName) ↔
        p ∈ r.Failures.keys ∨ p ∈ r.ignores.keys) ∧
      ∀ e ∈ entries, e.Checksum = x.CalculateCollectiveHash [e.FileName] ∧
        e.IgnoreDetectors = some [] := by
  have hnames : ∀ l : List GoString,
      (suggestedEntries x l).map (fun e => e.FileName) = l := by
    intro l
    simp [suggestedEntries, Function.comp_def]
  refine ⟨_, suggestedEntries x (unique (r.Failures.keys ++ r.ignores.keys)),
    Report_of_failures x r hn hf, rfl, ?_, ?_, ?_, ?_⟩
  · exact ⟨suggestionHint, goStr "\n\n", rfl⟩
  · rw [hnames]; exact unique_nodup _
  · intro p
    rw [hnames, mem_unique, List.mem_append]
  · intro e he
    simp only [suggestedEntries, List.mem_map] at he
    obtain ⟨p, _, rfl⟩ := he
    exact ⟨rfl, rfl⟩

/-- C7, on a state in which `some_file.pem` failed and is ignored and
`other_file` is only ignored. -/
theorem C7_report_suggests_entries_witness :
    mixedResults.Failures.keys = [goStr "some_file.pem"] ∧
    mixedResults.ignores.keys = [goStr "some_file.pem", goStr "other_file"] ∧
    ∃ out entries, mixedResults.Report sampleExternals = some out ∧
      out.result = suggestionHint ++ sampleExternals.yamlMarshal ⟨entries⟩ ++ goStr "\n\n" ∧
      sampleExternals.yamlMarshal ⟨entries⟩ <:+: out.result ∧
      (entries.map fun e => e.FileName).Nodup ∧
      (∀ p, p ∈ (entries.map fun e => e.FileName) ↔
        p ∈ mixedResults.Failures.keys ∨ p ∈ mixedResults.ignores.keys) ∧
      ∀ e ∈ entries, e.Checksum = sampleExternals.CalculateCollectiveHash [e.FileName] ∧
        e.IgnoreDetectors = some [] :=
  ⟨by decide, by decide,
   C7_report_suggests_entries sampleExternals mixedResults (by decide) (by decide)⟩

/-- C8: the string that `Report()` returns does not hold the table. After
`Fail("some_file.pem", "Bomb", [])` the row with the message `Bomb` is written
to the standard output, and the returned string is the hint, the serialized
suggestion for `some_file.pem` and two newlines, whatever the hash and the YAML
encoder are; with the sample encoder it does not contain `Bomb`. -/
theorem C8_returned_string_lacks_message (x : Externals) :
    bombResults.HasFailures = true ∧
    goStr "Bomb" ∈ (messagesOf bombResults (goStr "some_file.pem")).keys ∧
    (∃ out, bombResults.Report x = some out ∧
      out.stdout = some [[goStr "some_file.pem", goStr "Bomb"]] ∧
      out.result = suggestionHint ++
        x.yamlMarshal ⟨[⟨goStr "some_file.pem",
          x.CalculateCollectiveHash [goStr "some_file.pem"], some []⟩]⟩ ++ goStr "\n\n") ∧
    ∃ out, bombResults.Report sampleExternals = some out ∧
      ¬ goStr "Bomb" <:+: out.result := by
  have hu : unique (bombResults.Failures.keys ++ bombResults.ignores.keys)
      = [goStr "some_file.pem"] := by decide
  have hrows : (bombResults.Failures.keys.flatMap fun k =>
      (messagesOf bombResults k).keys.map fun msg => [k, wrapMessage msg])
      = [[goStr "some_file.pem", goStr "Bomb"]] := by decide
  refine ⟨by decide, by decide,
    ⟨_, Report_of_failures x bombResults (by decide) (by decide), ?_, ?_⟩,
    _, rfl, by decide⟩
  · simp only [hrows]
  · simp only [hu]
    rfl

/-- C9: two states (without nil entries in `Failures`) whose `Failures` maps
have the same file paths and whose `ignores` maps have the same file paths,
visited in the same order, get the same string from `Report()`, whatever
messages, commits and detector names they hold. -/
theorem C9_report_depends_on_paths (x : Externals) (r1 r2 : DetectionResults)
    (h1 : NoNilFailures r1) (h2 : NoNilFailures r2)
    (hF : r1.Failures.keys = r2.Failures.keys) (hI : r1.ignores.keys = r2.ignores.keys) :
    ∃ out1 out2, r1.Report x = some out1 ∧ r2.Report x = some out2 ∧
      out1.result = out2.result := by
  cases hl : r1.Failures with
  | nil =>
    have hl2 : r2.Failures = [] := by
      have : r2.Failures.keys = [] := by rw [← hF, hl]; rfl
      simpa [GoMap.keys] using this
    exact ⟨_, _, Report_of_no_failures x r1 hl, Report_of_no_failures x r2 hl2, rfl⟩
  | cons e rest =>
    have hf1 : r1.HasFailures = true := by simp [DetectionResults.HasFailures, hl]
    have hf2 : r2.HasFailures = true := by
      have hlen : r2.Failures.length = r1.Failures.length := by
        have := congrArg List.length hF
        simpa [GoMap.keys] using this.symm
      simp [DetectionResults.HasFailures, hlen, hl]
    refine ⟨_, _, Report_of_failures x r1 h1 hf1, Report_of_failures x r2 h2 hf2, ?_⟩
    simp only [hF, hI]

/-- C9, on two states over the same paths with different messages, commits and
detector names. -/
theorem C9_report_depends_on_paths_witness :
    mixedResults ≠ mixedResultsOther ∧
    ∃ out1 out2, mixedResults.Report sampleExternals = some out1 ∧
      mixedResultsOther.Report sampleExternals = some out2 ∧ out1.result = out2.result :=
  ⟨by decide,
   C9_report_depends_on_paths sampleExternals mixedResults mixedResultsOther
    (by decide) (by decide) (by decide) (by decide)⟩

/-- C10: in every state, for a file that has failure data, `ReportFileFailures`
returns one row `[file, message]` (the message wrapped when long) for each of
the file's message keys and nothing else, so as many rows as keys; on a result
built from a fresh one there are as many rows as distinct messages failed for
the file. -/
theorem C10_rows_per_message (r : DetectionResults) (f : FilePath) (fd : FailureData)
    (cs : List Call) (h : r.GetFailures f = some fd) :
    (∃ rows, r.ReportFileFailures f = some rows ∧
      rows = fd.messages.map (fun m => [f, wrapMessage m]) ∧
      rows.length = fd.messages.length ∧
      fd.messages = (messagesOf r f).keys) ∧
    (failMessages f cs ≠ [] →
      ∃ rows, (runCalls NewDetectionResults cs).ReportFileFailures f = some rows ∧
        rows.length = (failMessages f cs).dedup.length ∧
        ∀ row, row ∈ rows ↔ ∃ m ∈ failMessages f cs, row = [f, wrapMessage m]) := by
  constructor
  · exact ⟨_, ReportFileFailures_of_some r f fd h, rfl, by simp, (messagesOf_eq r f fd h).symm⟩
  · intro hne
    have hcall := (failMessages_ne_nil_iff cs f).mp hne
    have hfd := failuresAt_runCalls_eq NewDetectionResults cs f (Or.inr hcall)
    refine ⟨_, ReportFileFailures_of_some _ f _ hfd, ?_, ?_⟩
    · rw [List.length_map]
      exact messages_length_runCalls cs f
    · intro row
      have hnew : messagesOf NewDetectionResults f = [] := rfl
      simp only [List.mem_map, FailureData.messages, mem_messagesOf_keys_runCalls, hnew]
      constructor
      · rintro ⟨m, hm, rfl⟩
        rcases hm with hm | hm
        · simp [GoMap.keys] at hm
        · exact ⟨m, hm, rfl⟩
      · rintro ⟨m, hm, rfl⟩
        exact ⟨m, Or.inr hm, rfl⟩

/-- C10, on the calls of the repository's test `TestResultsReportsFailures`: two
rows for `some_filename`. -/
theorem C10_rows_per_message_witness :
    (runCalls NewDetectionResults multipleErrorsCalls).ReportFileFailures
        (goStr "some_filename")
      = some [[goStr "some_filename", goStr "Bomb"],
              [goStr "some_filename", goStr "Complete & utter failure"]] ∧
    ∃ rows, (runCalls NewDetectionResults multipleErrorsCalls).ReportFileFailures
        (goStr "some_filename") = some rows ∧
      rows.length = 2 ∧
      ∀ row, row ∈ rows ↔ ∃ m ∈ failMessages (goStr "some_filename") multipleErrorsCalls,
        row = [goStr "some_filename", wrapMessage m] :=
  ⟨by decide,
   (C10_rows_per_message (runCalls NewDetectionResults multipleErrorsCalls)
      (goStr "some_filename")
      ⟨some [(goStr "Bomb", some []), (goStr "Complete & utter failure", some [])]⟩
      multipleErrorsCalls (by decide)).2 (by decide)⟩

/-! ## Lemmas on unique -/

theorem unique_fold_keys (xs : List GoString) (km : GoMap GoString Bool) (l : List GoString)
    (hk : km.keys = l) :
    (xs.foldl
      (fun (st : GoMap GoString Bool × List GoString) entry =>
        match st.1.get? entry with
        | some _ => st
        | none => (st.1.set entry true, st.2 ++ [entry]))
      (km, l)).1.keys
    = (xs.foldl
      (fun (st : GoMap GoString Bool × List GoString) entry =>
        match st.1.get? entry with
        | some _ => st
        | none => (st.1.set entry true, st.2 ++ [entry]))
      (km, l)).2 := by
  induction xs generalizing km l with
  | nil => simpa using hk
  | cons e rest ih =>
    simp only [List.foldl_cons]
    cases hg : km.get? e with
    | some b => exact ih km l hk
    | none =>
      have he : e ∉ km.keys := (GoMap.get?_eq_none_iff _ _).mp hg
      apply ih
      rw [GoMap.keys_set, hk]
      rw [hk] at he
      simp [he]

theorem unique_snoc (pre : List GoString) (x : GoString) :
    unique (pre ++ [x]) = if x ∈ pre then unique pre else unique pre ++ [x] := by
  have hkeys := unique_fold_keys pre [] [] rfl
  have hmem := mem_unique pre x
  unfold unique at hmem ⊢
  rw [List.foldl_append]
  simp only [List.foldl_cons, List.foldl_nil]
  cases hg : GoMap.get? (pre.foldl
      (fun (st : GoMap GoString Bool × List GoString) entry =>
        match st.1.get? entry with
        | some _ => st
        | none => (st.1.set entry true, st.2 ++ [entry]))
      ([], [])).1 x with
  | some b =>
    have hx : x ∈ pre := by
      rw [← hmem, ← hkeys, GoMap.mem_keys_iff, hg]; rfl
    simp [hx]
  | none =>
    have hx : x ∉ pre := by
      rw [← hmem, ← hkeys]; exact (GoMap.get?_eq_none_iff _ _).mp hg
    simp [hx]

theorem unique_nil : unique [] = [] := rfl

theorem unique_sublist (xs : List GoString) : (unique xs).Sublist xs := by
  induction xs using List.reverseRecOn with
  | nil => simp [unique_nil]
  | append_singleton pre x ih =>
    rw [unique_snoc]
    by_cases hx : x ∈ pre
    · simp only [hx, if_true]
      exact ih.trans (List.sublist_append_left pre [x])
    · simp only [hx, if_false]
      exact List.Sublist.append ih (List.Sublist.refl [x])

theorem unique_of_nodup (xs : List GoString) (h : xs.Nodup) : unique xs = xs := by
  induction xs using List.reverseRecOn with
  | nil => rfl
  | append_singleton pre x ih =>
    rw [List.nodup_append] at h
    obtain ⟨hpre, -, hdisj⟩ := h
    have hx : x ∉ pre := fun hmem => hdisj hmem (List.mem_singleton_self x)
    rw [unique_snoc, ih hpre]
    simp [hx]

theorem firstOccurrences_snoc (pre : List GoString) (x : GoString) :
    firstOccurrences (pre ++ [x])
      = if x ∈ pre then firstOccurrences pre else firstOccurrences pre ++ [x] := by
  unfold firstOccurrences
  simp only [List.length_append, List.length_singleton]
  rw [List.range_succ, List.filterMap_append]
  have h1 : (List.range pre.length).filterMap (fun i =>
        match (pre ++ [x])[i]? with
        | some y => if y ∈ (pre ++ [x]).take i then none else some y
        | none => none)
      = (List.range pre.length).filterMap (fun i =>
        match pre[i]? with
        | some y => if y ∈ pre.take i then none else some y
        | none => none) := by
    apply List.filterMap_congr
    intro i hi
    have hlt : i < pre.length := List.mem_range.mp hi
    rw [List.getElem?_append_left hlt, List.take_append_of_le_length (Nat.le_of_lt hlt)]
  have h2 : (pre ++ [x])[pre.length]? = some x := by
    rw [List.getElem?_append_right (Nat.le_refl _)]; simp
  rw [h1]
  simp only [List.filterMap_cons, List.filterMap_nil, h2, List.take_left']
  by_cases hx : x ∈ pre <;> simp [hx]

theorem unique_eq_firstOccurrences (xs : List GoString) : unique xs = firstOccurrences xs := by
  induction xs using List.reverseRecOn with
  | nil => rfl
  | append_singleton pre x ih => rw [unique_snoc, firstOccurrences_snoc, ih]

/-! ## Lemmas on frames and invariants -/

theorem GoMap.forall_set {κ ν : Type} [DecidableEq κ] (P : ν → Prop) (l : GoMap κ ν) (k : κ)
    (v : ν) (hl : ∀ e ∈ l, P e.2) (hv : P v) : ∀ e ∈ l.set k v, P e.2 := by
  induction l with
  | nil => intro e he; simp [GoMap.set] at he; subst he; exact hv
  | cons a rest ih =>
    obtain ⟨k0, v0⟩ := a
    intro e he
    by_cases h0 : k0 = k
    · simp only [GoMap.set, h0, if_true, List.mem_cons] at he
      rcases he with he | he
      · subst he; exact hv
      · exact hl e (List.mem_cons_of_mem _ he)
    · simp only [GoMap.set, h0, if_false, List.mem_cons] at he
      rcases he with he | he
      · subst he; exact hl _ (List.mem_cons_self _ _)
      · exact ih (fun e he => hl e (List.mem_cons_of_mem _ he)) e he

theorem entries_runCalls (r : DetectionResults) (cs : List Call)
    (h : ∀ e ∈ r.Failures, ∃ m : GoMap GoString GoSlice, e.2 = some ⟨some m⟩ ∧ m ≠ []) :
    ∀ e ∈ (runCalls r cs).Failures,
      ∃ m : GoMap GoString GoSlice, e.2 = some ⟨some m⟩ ∧ m ≠ [] := by
  induction cs generalizing r with
  | nil => simpa [runCalls] using h
  | cons c cs ih =>
    rw [runCalls_cons]
    apply ih
    cases c with
    | fail f m c =>
      simp only [Call.apply, Fail_Failures]
      exact GoMap.forall_set
        (fun v : Option FailureData =>
          ∃ m : GoMap GoString GoSlice, v = some (FailureData.mk (some m)) ∧ m ≠ [])
        _ _ _ h ⟨_, rfl, GoMap.set_ne_nil _ _ _⟩
    | ignore f d =>
      simpa only [Call.apply, Ignore_Failures] using h

theorem ReportFileFailures_of_none (r : DetectionResults) (f : FilePath)
    (h : failuresAt r f = none) : r.ReportFileFailures f = none := by
  unfold DetectionResults.ReportFileFailures
  rw [h]

theorem wrapMessage_short (m : GoString) (h : m.length ≤ 150) : wrapMessage m = m := by
  unfold wrapMessage
  simp [Nat.not_lt.mpr h]

theorem wrapMessage_long (m : GoString) (h : 150 < m.length) :
    wrapMessage m = m.take 150 ++ [10] ++ m.drop 150 := by
  unfold wrapMessage
  simp only [gt_iff_lt, h, if_true]
  rfl

/-! ## Lemmas on states up to range order -/

theorem GoMap.same_refl {κ ν : Type} [DecidableEq κ] (m : GoMap κ ν) : GoMap.Same m m :=
  fun _ => rfl

theorem GoMap.same_symm {κ ν : Type} [DecidableEq κ] {m1 m2 : GoMap κ ν}
    (h : GoMap.Same m1 m2) : GoMap.Same m2 m1 :=
  fun k => (h k).symm

theorem GoMap.same_trans {κ ν : Type} [DecidableEq κ] {m1 m2 m3 : GoMap κ ν}
    (h : GoMap.Same m1 m2) (h' : GoMap.Same m2 m3) : GoMap.Same m1 m3 :=
  fun k => (h k).trans (h' k)

theorem GoMap.same_set {κ ν : Type} [DecidableEq κ] {m1 m2 : GoMap κ ν}
    (h : GoMap.Same m1 m2) (k : κ) (v : ν) : GoMap.Same (m1.set k v) (m2.set k v) := by
  intro k'
  by_cases hk : k = k'
  · subst hk; rw [GoMap.get?_set_self, GoMap.get?_set_self]
  · rw [GoMap.get?_set_ne _ _ hk, GoMap.get?_set_ne _ _ hk]; exact h k'

theorem GoMap.same_set_comm {κ ν : Type} [DecidableEq κ] (m : GoMap κ ν) {k1 k2 : κ}
    (v1 v2 : ν) (h : k1 ≠ k2) :
    GoMap.Same ((m.set k1 v1).set k2 v2) ((m.set k2 v2).set k1 v1) := by
  intro k
  by_cases h1 : k1 = k
  · subst h1
    rw [GoMap.get?_set_ne _ _ (Ne.symm h), GoMap.get?_set_self, GoMap.get?_set_self]
  · by_cases h2 : k2 = k
    · subst h2
      rw [GoMap.get?_set_self, GoMap.get?_set_ne _ _ h1, GoMap.get?_set_self]
    · rw [GoMap.get?_set_ne _ _ h2, GoMap.get?_set_ne _ _ h1, GoMap.get?_set_ne _ _ h1,
        GoMap.get?_set_ne _ _ h2]

theorem GoMap.get?_of_mem {κ ν : Type} [DecidableEq κ] (m : GoMap κ ν) (hm : m.WF) (k : κ)
    (v : ν) (h : (k, v) ∈ m) : m.get? k = some v := by
  induction m with
  | nil => simp at h
  | cons e rest ih =>
    obtain ⟨k0, v0⟩ := e
    have hnd : k0 ∉ GoMap.keys rest ∧ (GoMap.keys rest).Nodup := by
      simpa [GoMap.WF, GoMap.keys] using hm
    rcases List.mem_cons.mp h with h | h
    · cases h; simp [GoMap.get?]
    · have hk : k ∈ GoMap.keys rest := List.mem_map.mpr ⟨(k, v), h, rfl⟩
      have hne : ¬ k0 = k := fun heq => hnd.1 (heq ▸ hk)
      simp only [GoMap.get?, hne, if_false]
      exact ih hnd.2 h

theorem GoMap.same_iff_perm {κ ν : Type} [DecidableEq κ] (m1 m2 : GoMap κ ν) (h1 : m1.WF)
    (h2 : m2.WF) : GoMap.Same m1 m2 ↔ m1.Perm m2 := by
  have nd1 : m1.Nodup := List.Nodup.of_map _ h1
  have nd2 : m2.Nodup := List.Nodup.of_map _ h2
  rw [List.perm_ext_iff_of_nodup nd1 nd2]
  constructor
  · intro h e
    obtain ⟨k, v⟩ := e
    constructor
    · intro he
      exact GoMap.mem_of_get? _ _ _ ((h k).symm.trans (GoMap.get?_of_mem m1 h1 k v he))
    · intro he
      exact GoMap.mem_of_get? _ _ _ ((h k).trans (GoMap.get?_of_mem m2 h2 k v he))
  · intro h k
    cases hg : m1.get? k with
    | none =>
      cases hg2 : m2.get? k with
      | none => rfl
      | some v =>
        have := GoMap.get?_of_mem m1 h1 k v ((h (k, v)).mpr (GoMap.mem_of_get? _ _ _ hg2))
        rw [hg] at this; cases this
    | some v =>
      exact (GoMap.get?_of_mem m2 h2 k v ((h (k, v)).mp (GoMap.mem_of_get? _ _ _ hg))).symm

theorem sameData_refl (a : Option FailureData) : sameData a a := by
  rcases a with _ | ⟨_ | m⟩
  · trivial
  · trivial
  · exact GoMap.same_refl m

theorem sameData_symm {a b : Option FailureData} (h : sameData a b) : sameData b a := by
  rcases a with _ | ⟨_ | m⟩ <;> rcases b with _ | ⟨_ | m'⟩ <;>
    first
    | trivial
    | exact GoMap.same_symm h

theorem sameData_trans {a b c : Option FailureData} (h : sameData a b) (h' : sameData b c) :
    sameData a c := by
  rcases a with _ | ⟨_ | m⟩ <;> rcases b with _ | ⟨_ | m'⟩ <;> rcases c with _ | ⟨_ | m''⟩ <;>
    first
    | trivial
    | exact GoMap.same_trans h h'

theorem sameEntry_refl (a : Option (Option FailureData)) : sameEntry a a := by
  cases a with
  | none => trivial
  | some v => exact sameData_refl v

theorem sameEntry_symm {a b : Option (Option FailureData)} (h : sameEntry a b) :
    sameEntry b a := by
  cases a <;> cases b <;>
    first
    | trivial
    | exact sameData_symm h

theorem sameEntry_trans {a b c : Option (Option FailureData)} (h : sameEntry a b)
    (h' : sameEntry b c) : sameEntry a c := by
  cases a <;> cases b <;> cases c <;>
    first
    | trivial
    | exact sameData_trans h h'

theorem sameState_refl (r : DetectionResults) : r.Same r :=
  ⟨fun _ => sameEntry_refl _, GoMap.same_refl _⟩

theorem sameState_symm {r1 r2 : DetectionResults} (h : r1.Same r2) : r2.Same r1 :=
  ⟨fun f => sameEntry_symm (h.1 f), GoMap.same_symm h.2⟩

theorem sameState_trans {r1 r2 r3 : DetectionResults} (h : r1.Same r2)
    (h' : r2.Same r3) : r1.Same r3 :=
  ⟨fun f => sameEntry_trans (h.1 f) (h'.1 f), GoMap.same_trans h.2 h'.2⟩

theorem messagesOf_same {r1 r2 : DetectionResults} (h : r1.Same r2) (f : FilePath) :
    GoMap.Same (messagesOf r1 f) (messagesOf r2 f) := by
  have hf := h.1 f
  unfold messagesOf failuresAt
  rcases h1 : r1.Failures.get? f with _ | _ | ⟨_ | m⟩ <;>
    rcases h2 : r2.Failures.get? f with _ | _ | ⟨_ | m'⟩ <;>
    rw [h1, h2] at hf <;>
    first
    | exact GoMap.same_refl _
    | exact hf
    | exact False.elim hf

theorem Fail_same {r1 r2 : DetectionResults} (h : r1.Same r2) (f : FilePath) (m : GoString)
    (c : GoSlice) : (r1.Fail f m c).Same (r2.Fail f m c) := by
  have hm := messagesOf_same h f
  have hc : commitsIn (messagesOf r1 f) m = commitsIn (messagesOf r2 f) m := by
    unfold commitsIn; rw [hm m]
  refine ⟨fun f' => ?_, h.2⟩
  rw [Fail_Failures, Fail_Failures]
  by_cases hf : f = f'
  · subst hf
    rw [GoMap.get?_set_self, GoMap.get?_set_self, hc]
    exact GoMap.same_set hm m _
  · rw [GoMap.get?_set_ne _ _ hf, GoMap.get?_set_ne _ _ hf]
    exact h.1 f'

theorem Ignore_same {r1 r2 : DetectionResults} (h : r1.Same r2) (f : FilePath) (d : GoString) :
    (r1.Ignore f d).Same (r2.Ignore f d) := by
  have hi : ignoresOf r1 f = ignoresOf r2 f := by
    unfold ignoresOf; rw [h.2 f]
  refine ⟨fun f' => ?_, ?_⟩
  · rw [Ignore_Failures, Ignore_Failures]; exact h.1 f'
  · rw [Ignore_ignores, Ignore_ignores, hi]
    exact GoMap.same_set h.2 f _

theorem apply_same {r1 r2 : DetectionResults} (h : r1.Same r2) (c : Call) :
    (c.apply r1).Same (c.apply r2) := by
  cases c with
  | fail f m c => exact Fail_same h f m c
  | ignore f d => exact Ignore_same h f d

theorem runCalls_same {r1 r2 : DetectionResults} (h : r1.Same r2) (cs : List Call) :
    (runCalls r1 cs).Same (runCalls r2 cs) := by
  induction cs generalizing r1 r2 with
  | nil => exact h
  | cons c cs ih => exact ih (apply_same h c)

theorem DetectionResults.eq_of_fields (a b : DetectionResults) (hF : a.Failures = b.Failures)
    (hI : a.ignores = b.ignores) : a = b := by
  cases a; cases b; simp_all

theorem Fail_Ignore_comm (r : DetectionResults) (f : FilePath) (m : GoString) (c : GoSlice)
    (f' : FilePath) (d : GoString) :
    (r.Fail f m c).Ignore f' d = (r.Ignore f' d).Fail f m c := by
  apply DetectionResults.eq_of_fields
  · rw [Ignore_Failures, Fail_Failures, Fail_Failures, Ignore_Failures]
    have : messagesOf (r.Ignore f' d) f = messagesOf r f := messagesOf_Ignore r f' f d
    rw [this]
  · rw [Ignore_ignores, Fail_ignores, Fail_ignores, Ignore_ignores]
    rfl

theorem Fail_Fail_comm (r : DetectionResults) (f1 f2 : FilePath) (m1 m2 : GoString)
    (c1 c2 : GoSlice) (h : (f1, m1) ≠ (f2, m2)) :
    ((r.Fail f1 m1 c1).Fail f2 m2 c2).Same ((r.Fail f2 m2 c2).Fail f1 m1 c1) := by
  refine ⟨fun f => ?_, GoMap.same_refl _⟩
  by_cases hf : f1 = f2
  · subst hf
    have hm : m1 ≠ m2 := fun hm => h (by rw [hm])
    have e1 : commitsIn ((messagesOf r f1).set m1
        (storedCommits (commitsIn (messagesOf r f1) m1) c1)) m2
        = commitsIn (messagesOf r f1) m2 := by
      unfold commitsIn; rw [GoMap.get?_set_ne _ _ hm]
    have e2 : commitsIn ((messagesOf r f1).set m2
        (storedCommits (commitsIn (messagesOf r f1) m2) c2)) m1
        = commitsIn (messagesOf r f1) m1 := by
      unfold commitsIn; rw [GoMap.get?_set_ne _ _ (Ne.symm hm)]
    rw [Fail_Failures (r.Fail f1 m1 c1), Fail_Failures (r.Fail f1 m2 c2),
      messagesOf_Fail_self, messagesOf_Fail_self, Fail_Failures, Fail_Failures,
      GoMap.set_set, GoMap.set_set, e1, e2]
    by_cases hff : f1 = f
    · subst hff
      rw [GoMap.get?_set_self, GoMap.get?_set_self]
      exact GoMap.same_set_comm _ _ _ hm
    · rw [GoMap.get?_set_ne _ _ hff, GoMap.get?_set_ne _ _ hff]
      exact sameEntry_refl _
  · rw [Fail_Failures (r.Fail f1 m1 c1), Fail_Failures (r.Fail f2 m2 c2),
      messagesOf_Fail_ne r m1 c1 hf, messagesOf_Fail_ne r m2 c2 (Ne.symm hf),
      Fail_Failures, Fail_Failures]
    rw [GoMap.same_set_comm r.Failures _ _ hf f]
    exact sameEntry_refl _

theorem Ignore_Ignore_comm (r : DetectionResults) (f1 f2 : FilePath) (d1 d2 : GoString)
    (h : f1 ≠ f2) : ((r.Ignore f1 d1).Ignore f2 d2).Same ((r.Ignore f2 d2).Ignore f1 d1) := by
  refine ⟨fun f => ?_, ?_⟩
  · rw [Ignore_Failures, Ignore_Failures, Ignore_Failures, Ignore_Failures]
    exact sameEntry_refl _
  · rw [Ignore_ignores (r.Ignore f1 d1), Ignore_ignores (r.Ignore f2 d2),
      ignoresOf_Ignore_ne r d1 h, ignoresOf_Ignore_ne r d2 (Ne.symm h),
      Ignore_ignores, Ignore_ignores]
    exact GoMap.same_set_comm _ _ _ h

theorem apply_comm (r : DetectionResults) (a b : Call) (h : Call.Independent a b) :
    (b.apply (a.apply r)).Same (a.apply (b.apply r)) := by
  cases a with
  | fail f1 m1 c1 =>
    cases b with
    | fail f2 m2 c2 => exact Fail_Fail_comm r f1 f2 m1 m2 c1 c2 h
    | ignore f2 d2 =>
      simp only [Call.apply]
      rw [Fail_Ignore_comm]
      exact sameState_refl _
  | ignore f1 d1 =>
    cases b with
    | fail f2 m2 c2 =>
      simp only [Call.apply]
      rw [Fail_Ignore_comm]
      exact sameState_refl _
    | ignore f2 d2 => exact Ignore_Ignore_comm r f1 f2 d1 d2 h

theorem runCalls_apply_comm (r : DetectionResults) (a : Call) (cs : List Call)
    (h : ∀ b ∈ cs, Call.Independent a b) :
    (runCalls (a.apply r) cs).Same (a.apply (runCalls r cs)) := by
  induction cs generalizing r with
  | nil => exact sameState_refl _
  | cons b cs ih =>
    rw [runCalls_cons, runCalls_cons]
    have h1 := runCalls_same (apply_comm r a b (h b (List.mem_cons_self _ _))) cs
    exact sameState_trans h1 (ih (b.apply r) (fun b' hb' => h b' (List.mem_cons_of_mem _ hb')))

theorem runCalls_append_comm (r : DetectionResults) (cs1 cs2 : List Call)
    (h : ∀ a ∈ cs1, ∀ b ∈ cs2, Call.Independent a b) :
    (runCalls r (cs1 ++ cs2)).Same (runCalls r (cs2 ++ cs1)) := by
  induction cs1 generalizing r with
  | nil => simpa using sameState_refl _
  | cons a cs1 ih =>
    have h1 : (runCalls (a.apply r) (cs1 ++ cs2)).Same (runCalls (a.apply r) (cs2 ++ cs1)) :=
      ih (a.apply r) (fun a' ha' => h a' (List.mem_cons_of_mem _ ha'))
    have h2 : (runCalls (runCalls (a.apply r) cs2) cs1).Same
        (runCalls (a.apply (runCalls r cs2)) cs1) :=
      runCalls_same (runCalls_apply_comm r a cs2 (h a (List.mem_cons_self _ _))) cs1
    rw [runCalls_append] at h1 ⊢
    rw [runCalls_append (a.apply r) cs2 cs1] at h1
    rw [runCalls_append r cs2 (a :: cs1), runCalls_cons (runCalls r cs2) a cs1]
    have h0 : runCalls (runCalls r (a :: cs1)) cs2
        = runCalls (runCalls (a.apply r) cs1) cs2 := rfl
    rw [h0]
    exact sameState_trans h1 h2

/-! ## Wrapping of long messages -/

/-- C12, as stated in characters, fails: a message of 76 characters that takes
152 bytes is not shown unchanged, a newline is inserted after its byte 150. -/
theorem C12_wrap_counts_bytes :
    accentedMessage.length = 76 ∧
    wrapMessage (goStr accentedMessage) ≠ goStr accentedMessage ∧
    (NewDetectionResults.Fail (goStr "secret.txt") (goStr accentedMessage)
        none).ReportFileFailures (goStr "secret.txt")
      = some [[goStr "secret.txt",
          (goStr accentedMessage).take 150 ++ goStr "\n" ++ (goStr accentedMessage).drop 150]] := by
  refine ⟨by decide, by decide, by decide⟩

/-- C12, amended to bytes: in the rows built by `ReportFileFailures` a message of
at most 150 bytes is shown unchanged, and a longer one is shown as its first 150
bytes, one newline and the rest; the shown text is one byte longer, has one more
newline, holds the newline at byte position 150, and is the message again once
that byte is deleted. -/
theorem C12_wrap_at_150_bytes (r : DetectionResults) (f : FilePath) (fd : FailureData)
    (m : GoString) :
    (r.GetFailures f = some fd →
      r.ReportFileFailures f = some (fd.messages.map fun msg => [f, wrapMessage msg])) ∧
    (m.length ≤ 150 → wrapMessage m = m) ∧
    (150 < m.length →
      wrapMessage m = m.take 150 ++ goStr "\n" ++ m.drop 150 ∧
      (m.take 150).length = 150 ∧
      (wrapMessage m).length = m.length + 1 ∧
      (wrapMessage m).count 10 = m.count 10 + 1 ∧
      (wrapMessage m)[150]? = some 10 ∧
      (wrapMessage m).eraseIdx 150 = m) := by
  refine ⟨fun h => ReportFileFailures_of_some r f fd h, wrapMessage_short m, fun h => ?_⟩
  have htake : (m.take 150).length = 150 := by
    rw [List.length_take]; omega
  have hsplit : m.take 150 ++ m.drop 150 = m := List.take_append_drop 150 m
  rw [wrapMessage_long m h]
  refine ⟨rfl, htake, ?_, ?_, ?_, ?_⟩
  · simp only [List.length_append, List.length_drop, htake, List.length_singleton]
    omega
  · have hc := congrArg (List.count (10 : UInt8)) hsplit
    simp only [List.count_append] at hc
    simp only [List.count_append, List.count_singleton_self]
    omega
  · rw [List.append_assoc, List.getElem?_append_right (by omega), htake]
    simp
  · rw [List.append_assoc, List.eraseIdx_append_of_length_le (by omega), htake]
    simp [hsplit]

/-- C12 amended, on a message of 151 bytes. -/
theorem C12_wrap_at_150_bytes_witness :
    wrapMessage longMessage = longMessage.take 150 ++ goStr "\n" ++ longMessage.drop 150 ∧
      (longMessage.take 150).length = 150 ∧
      (wrapMessage longMessage).length = longMessage.length + 1 ∧
      (wrapMessage longMessage).count 10 = longMessage.count 10 + 1 ∧
      (wrapMessage longMessage)[150]? = some 10 ∧
      (wrapMessage longMessage).eraseIdx 150 = longMessage :=
  (C12_wrap_at_150_bytes NewDetectionResults [] ⟨none⟩ longMessage).2.2 (by decide)

/-! ## Deduplication of paths -/

/-- C17: `unique(xs)` has no duplicates and has exactly the strings of `xs`; it
is the subsequence of `xs` of the entries that do not occur at an earlier
position (the first occurrences, in their order), so an entry appended to a list
is kept exactly when it does not occur in the list; `unique` is idempotent and
leaves a list without duplicates as it is. -/
theorem C17_unique_first_occurrences (xs : List GoString) :
    (unique xs).Nodup ∧
    (∀ a, a ∈ unique xs ↔ a ∈ xs) ∧
    (unique xs).Sublist xs ∧
    unique xs = firstOccurrences xs ∧
    (∀ pre x, unique (pre ++ [x]) = if x ∈ pre then unique pre else unique pre ++ [x]) ∧
    unique (unique xs) = unique xs ∧
    (xs.Nodup → unique xs = xs) :=
  ⟨unique_nodup xs, mem_unique xs, unique_sublist xs, unique_eq_firstOccurrences xs,
    unique_snoc, unique_of_nodup _ (unique_nodup xs), unique_of_nodup xs⟩

/-- C17, on a list without duplicates. -/
theorem C17_unique_first_occurrences_witness :
    unique [goStr "b", goStr "a", goStr "b", goStr "c", goStr "a"]
      = [goStr "b", goStr "a", goStr "c"] ∧
    unique [goStr "b", goStr "a", goStr "c"] = [goStr "b", goStr "a", goStr "c"] :=
  ⟨by decide,
   (C17_unique_first_occurrences [goStr "b", goStr "a", goStr "c"]).2.2.2.2.2.2 (by decide)⟩

/-! ## Safety of the report -/

/-- C18: in every state built from a fresh result by `Fail` and `Ignore` calls,
every entry of `Failures` is a non-nil `FailureData` with a non-nil message map
of at least one key; `ReportFileFailures` returns at least one row for every
file present in `Failures`, `Report` returns (no nil dereference), and
`ReportFileFailures` panics for a file that no `Fail` call named. -/
theorem C18_reachable_states_report (x : Externals) (cs : List Call) (f : FilePath) :
    (∀ e ∈ (runCalls NewDetectionResults cs).Failures,
      ∃ m : GoMap GoString GoSlice, e.2 = some ⟨some m⟩ ∧ m ≠ []) ∧
    (f ∈ (runCalls NewDetectionResults cs).Failures.keys →
      ∃ rows, (runCalls NewDetectionResults cs).ReportFileFailures f = some rows ∧
        rows ≠ []) ∧
    (∃ out, (runCalls NewDetectionResults cs).Report x = some out) ∧
    (failMessages f cs = [] →
      (runCalls NewDetectionResults cs).ReportFileFailures f = none) := by
  have hent := entries_runCalls NewDetectionResults cs (by simp [NewDetectionResults])
  have hnn : NoNilFailures (runCalls NewDetectionResults cs) :=
    NoNilFailures_runCalls _ cs (by simp [NoNilFailures, NewDetectionResults])
  refine ⟨hent, ?_, ?_, ?_⟩
  · intro hf
    have hsome := (GoMap.mem_keys_iff _ _).mp hf
    cases hg : (runCalls NewDetectionResults cs).Failures.get? f with
    | none => rw [hg] at hsome; simp at hsome
    | some v =>
      obtain ⟨m, hv, hm⟩ := hent _ (GoMap.mem_of_get? _ _ _ hg)
      have hv' : v = some ⟨some m⟩ := hv
      have hfa : failuresAt (runCalls NewDetectionResults cs) f = some ⟨some m⟩ := by
        unfold failuresAt; rw [hg, hv']; rfl
      refine ⟨_, ReportFileFailures_of_some _ f _ hfa, ?_⟩
      cases m with
      | nil => exact absurd rfl hm
      | cons e rest => simp [FailureData.messages, GoMap.keys]
  · cases hl : (runCalls NewDetectionResults cs).Failures with
    | nil => exact ⟨_, Report_of_no_failures x _ hl⟩
    | cons e rest =>
      exact ⟨_, Report_of_failures x _ hnn (by simp [DetectionResults.HasFailures, hl])⟩
  · intro hno
    apply ReportFileFailures_of_none
    by_contra hne
    rcases (failuresAt_runCalls_ne_none NewDetectionResults cs f).mp hne with h0 | h
    · exact h0 rfl
    · exact (failMessages_ne_nil_iff cs f).mpr h hno

/-- C18, on the calls of the repository's test: rows for a file that failed, a
panic for a file that did not. -/
theorem C18_reachable_states_report_witness :
    (∃ rows, (runCalls NewDetectionResults multipleErrorsCalls).ReportFileFailures
        (goStr "another_filename") = some rows ∧ rows ≠ []) ∧
    (runCalls NewDetectionResults multipleErrorsCalls).ReportFileFailures
        (goStr "no_such_file") = none :=
  ⟨(C18_reachable_states_report sampleExternals multipleErrorsCalls
      (goStr "another_filename")).2.1 (by decide),
   (C18_reachable_states_report sampleExternals multipleErrorsCalls
      (goStr "no_such_file")).2.2.2 (by decide)⟩

/-! ## Frames -/

/-- The frame of `Fail` and `Ignore` in the embedding by contents, in which no
two slices share a backing array: `Fail(f, m, c)` leaves the `ignores` map, the entry of every other file and the entry of
every other message of `f` as they were, and adds no key but `f` and `m`;
`Ignore(f, d)` leaves the `Failures` map and the entry of every other file in
`ignores` as they were, and adds no key but `f`. -/
theorem frames_of_contents (r : DetectionResults) (f : FilePath) (m : GoString) (c : GoSlice)
    (d : GoString) :
    (r.Fail f m c).ignores = r.ignores ∧
    (∀ f', f' ≠ f → (r.Fail f m c).Failures.get? f' = r.Failures.get? f') ∧
    (∀ f', f' ∈ (r.Fail f m c).Failures.keys ↔ f' = f ∨ f' ∈ r.Failures.keys) ∧
    (∀ m', m' ≠ m →
      (messagesOf (r.Fail f m c) f).get? m' = (messagesOf r f).get? m') ∧
    (∀ m', m' ∈ (messagesOf (r.Fail f m c) f).keys ↔ m' = m ∨ m' ∈ (messagesOf r f).keys) ∧
    (r.Ignore f d).Failures = r.Failures ∧
    (∀ f', f' ≠ f → (r.Ignore f d).ignores.get? f' = r.ignores.get? f') ∧
    (∀ f', f' ∈ (r.Ignore f d).ignores.keys ↔ f' = f ∨ f' ∈ r.ignores.keys) := by
  refine ⟨rfl, ?_, ?_, ?_, ?_, Ignore_Failures r f d, ?_, ?_⟩
  · intro f' hf
    rw [Fail_Failures, GoMap.get?_set_ne _ _ (Ne.symm hf)]
  · intro f'
    rw [Fail_Failures, GoMap.mem_keys_set]
  · intro m' hm
    rw [messagesOf_Fail_self, GoMap.get?_set_ne _ _ (Ne.symm hm)]
  · intro m'
    rw [messagesOf_Fail_self, GoMap.mem_keys_set]
  · intro f' hf
    rw [Ignore_ignores, GoMap.get?_set_ne _ _ (Ne.symm hf)]
  · intro f'
    rw [Ignore_ignores, GoMap.mem_keys_set]

/-- C19: `Fail` changes the commit list of another key when the stored slices
share a backing array with spare capacity. With `commits` of length 1 and
capacity 4 stored by `Fail("f", "m", commits)` and `Fail("g", "m", commits)`,
the call `Fail("f", "m", ["x"])` leaves `[c1, x]` under (`f`, `m`), and the call
`Fail("g", "m", ["y"])` then appends in place and leaves `[c1, y]` under
(`f`, `m`) as well as under (`g`, `m`). -/
theorem C19_shared_capacity_breaks_frame (grow : Nat → Nat → Nat) :
    (goStr "g", goStr "m") ≠ (goStr "f", goStr "m") ∧
    ((sharedAcrossFiles grow).FailLiteral grow (goStr "f") (goStr "m")
        [goStr "x"]).commitsOf (goStr "f") (goStr "m") = [goStr "c1", goStr "x"] ∧
    (((sharedAcrossFiles grow).FailLiteral grow (goStr "f") (goStr "m")
        [goStr "x"]).FailLiteral grow (goStr "g") (goStr "m")
        [goStr "y"]).commitsOf (goStr "f") (goStr "m") = [goStr "c1", goStr "y"] ∧
    (((sharedAcrossFiles grow).FailLiteral grow (goStr "f") (goStr "m")
        [goStr "x"]).FailLiteral grow (goStr "g") (goStr "m")
        [goStr "y"]).commitsOf (goStr "g") (goStr "m") = [goStr "c1", goStr "y"] := by
  have h1 : (sharedAcrossFiles grow).FailLiteral grow (goStr "f") (goStr "m") [goStr "x"]
      = (sharedAcrossFiles exactGrowth).FailLiteral exactGrowth (goStr "f") (goStr "m")
          [goStr "x"] :=
    FailLiteral_grow_eq (sharedAcrossFiles_grow grow) (by decide)
  have h2 : ((sharedAcrossFiles grow).FailLiteral grow (goStr "f") (goStr "m")
        [goStr "x"]).FailLiteral grow (goStr "g") (goStr "m") [goStr "y"]
      = ((sharedAcrossFiles exactGrowth).FailLiteral exactGrowth (goStr "f") (goStr "m")
          [goStr "x"]).FailLiteral exactGrowth (goStr "g") (goStr "m") [goStr "y"] :=
    FailLiteral_grow_eq h1 (by decide)
  rw [h2, h1]
  decide

/-! ## Order of iteration -/

/-- C11: the rows of `ReportFileFailures` follow the range order of the message
map, not the order of the `Fail` calls: the state after
`Fail("some_filename", "Bomb", [])` and
`Fail("some_filename", "Complete & utter failure", [])` holds the same maps when
its message map is visited in the other order, and then row 0 carries
`Complete & utter failure` and row 1 carries `Bomb`. -/
theorem C11_rows_follow_range_order :
    twoMessages.Same twoMessagesSwapped ∧
    twoMessages.ReportFileFailures (goStr "some_filename")
      = some [[goStr "some_filename", goStr "Bomb"],
              [goStr "some_filename", goStr "Complete & utter failure"]] ∧
    twoMessagesSwapped.ReportFileFailures (goStr "some_filename")
      = some [[goStr "some_filename", goStr "Complete & utter failure"],
              [goStr "some_filename", goStr "Bomb"]] := by
  refine ⟨⟨fun f => ?_, GoMap.same_refl _⟩, by decide, by decide⟩
  have h1 : twoMessages.Failures = [(goStr "some_filename",
      some ⟨some [(goStr "Bomb", some []), (goStr "Complete & utter failure", some [])]⟩)] := by
    decide
  have h2 : twoMessagesSwapped.Failures = [(goStr "some_filename",
      some ⟨some [(goStr "Complete & utter failure", some []), (goStr "Bomb", some [])]⟩)] :=
    rfl
  rw [h1, h2]
  by_cases hf : goStr "some_filename" = f
  · simp only [GoMap.get?, hf, if_true]
    exact (GoMap.same_iff_perm _ _ (by unfold GoMap.WF; decide)
      (by unfold GoMap.WF; decide)).mpr (by decide)
  · simp only [GoMap.get?, hf, if_false]
    trivial

/-- C16, as stated, fails: after `Fail("b.pem", ..)` and `Fail("a.pem", ..)` the
entries are emitted in the order `b.pem`, `a.pem`, which is not ascending, and
the same maps visited in the other order give another returned string. -/
theorem C16_entries_not_sorted :
    twoFilesSwapped.Failures.Perm twoFiles.Failures ∧
    twoFilesSwapped.ignores = twoFiles.ignores ∧
    (∃ out, twoFiles.Report sampleExternals = some out ∧
      out.result = suggestionHint ++
        sampleExternals.yamlMarshal
          ⟨suggestedEntries sampleExternals [goStr "b.pem", goStr "a.pem"]⟩ ++ goStr "\n\n") ∧
    ascending [goStr "b.pem", goStr "a.pem"] = false ∧
    (twoFiles.Report sampleExternals).map (fun out => out.result)
      ≠ (twoFilesSwapped.Report sampleExternals).map (fun out => out.result) := by
  refine ⟨List.reverse_perm _, rfl, ⟨_, rfl, by decide⟩, by decide, by decide⟩

/-- C16, amended: the suppression entries that `Report()` emits are the entries
of the paths in the order of their first visit, the `Failures` map being ranged
over before the `ignores` map; for another range order of the same keys the
returned string serializes the same entries, in the order of that visit. -/
theorem C16_entries_in_visiting_order (x : Externals) (r r' : DetectionResults)
    (hf : r.HasFailures = true) (hn : NoNilFailures r) (hn' : NoNilFailures r')
    (hF : r'.Failures.keys.Perm r.Failures.keys)
    (hI : r'.ignores.keys.Perm r.ignores.keys) :
    ∃ out out', r.Report x = some out ∧ r'.Report x = some out' ∧
      out.result = suggestionHint ++ x.yamlMarshal
        ⟨suggestedEntries x (unique (r.Failures.keys ++ r.ignores.keys))⟩ ++ goStr "\n\n" ∧
      out'.result = suggestionHint ++ x.yamlMarshal
        ⟨suggestedEntries x (unique (r'.Failures.keys ++ r'.ignores.keys))⟩ ++ goStr "\n\n" ∧
      (suggestedEntries x (unique (r'.Failures.keys ++ r'.ignores.keys))).Perm
        (suggestedEntries x (unique (r.Failures.keys ++ r.ignores.keys))) := by
  have hf' : r'.HasFailures = true := by
    have hlen := hF.length_eq
    simp only [GoMap.keys, List.length_map] at hlen
    simpa [DetectionResults.HasFailures, hlen] using hf
  refine ⟨_, _, Report_of_failures x r hn hf, Report_of_failures x r' hn' hf', rfl, rfl, ?_⟩
  unfold suggestedEntries
  apply List.Perm.map
  rw [List.perm_ext_iff_of_nodup (unique_nodup _) (unique_nodup _)]
  intro a
  rw [mem_unique, mem_unique, List.mem_append, List.mem_append, hF.mem_iff, hI.mem_iff]

/-- C16 amended, on the two range orders of the state after `Fail("b.pem", ..)`
and `Fail("a.pem", ..)`. -/
theorem C16_entries_in_visiting_order_witness :
    ∃ out out', twoFiles.Report sampleExternals = some out ∧
      twoFilesSwapped.Report sampleExternals = some out' ∧
      out.result = suggestionHint ++ sampleExternals.yamlMarshal
        ⟨suggestedEntries sampleExternals
          (unique (twoFiles.Failures.keys ++ twoFiles.ignores.keys))⟩ ++ goStr "\n\n" ∧
      out'.result = suggestionHint ++ sampleExternals.yamlMarshal
        ⟨suggestedEntries sampleExternals
          (unique (twoFilesSwapped.Failures.keys ++ twoFilesSwapped.ignores.keys))⟩
            ++ goStr "\n\n" ∧
      (suggestedEntries sampleExternals
          (unique (twoFilesSwapped.Failures.keys ++ twoFilesSwapped.ignores.keys))).Perm
        (suggestedEntries sampleExternals
          (unique (twoFiles.Failures.keys ++ twoFiles.ignores.keys))) :=
  C16_entries_in_visiting_order sampleExternals twoFiles twoFilesSwapped (by decide)
    (by decide) (by decide) (by decide) (by decide)

/-! ## Commutation of writes -/

/-- Commutation of writes in the embedding by contents, in which no two slices
share a backing array: two `Fail` calls with different (file, message) pairs
give the same `Failures` and `ignores` maps in
both orders, a `Fail` call and an `Ignore` call give the same state in both
orders, and two sequences of calls that write to pairwise different keys give
the same maps in both orders. -/
theorem writes_commute_on_contents (r : DetectionResults) (f1 f2 : FilePath)
    (m1 m2 : GoString) (c1 c2 : GoSlice) (f : FilePath) (d : GoString)
    (cs1 cs2 : List Call) :
    ((f1, m1) ≠ (f2, m2) →
      ((r.Fail f1 m1 c1).Fail f2 m2 c2).Same ((r.Fail f2 m2 c2).Fail f1 m1 c1)) ∧
    (r.Fail f1 m1 c1).Ignore f d = (r.Ignore f d).Fail f1 m1 c1 ∧
    ((∀ a ∈ cs1, ∀ b ∈ cs2, Call.Independent a b) →
      (runCalls r (cs1 ++ cs2)).Same (runCalls r (cs2 ++ cs1))) :=
  ⟨Fail_Fail_comm r f1 f2 m1 m2 c1 c2, Fail_Ignore_comm r f1 m1 c1 f d,
    runCalls_append_comm r cs1 cs2⟩

/-- C13: two `Fail` calls with different (file, message) pairs do not commute
when the stored slices share a backing array with spare capacity. With `commits`
of length 1 and capacity 4 stored by `Fail("f", "m1", commits)` and
`Fail("f", "m2", commits)`, the calls `Fail("f", "m1", ["x"])` and then
`Fail("f", "m2", ["y"])` leave `[c1, y]` under both messages, and the calls in
the other order leave `[c1, x]` under both. -/
theorem C13_shared_capacity_breaks_commutation (grow : Nat → Nat → Nat) :
    (goStr "f", goStr "m1") ≠ (goStr "f", goStr "m2") ∧
    (sharedAcrossMessages grow).commitsOf (goStr "f") (goStr "m1") = [goStr "c1"] ∧
    (sharedAcrossMessages grow).commitsOf (goStr "f") (goStr "m2") = [goStr "c1"] ∧
    (((sharedAcrossMessages grow).FailLiteral grow (goStr "f") (goStr "m1")
        [goStr "x"]).FailLiteral grow (goStr "f") (goStr "m2")
        [goStr "y"]).commitsOf (goStr "f") (goStr "m1") = [goStr "c1", goStr "y"] ∧
    (((sharedAcrossMessages grow).FailLiteral grow (goStr "f") (goStr "m1")
        [goStr "x"]).FailLiteral grow (goStr "f") (goStr "m2")
        [goStr "y"]).commitsOf (goStr "f") (goStr "m2") = [goStr "c1", goStr "y"] ∧
    (((sharedAcrossMessages grow).FailLiteral grow (goStr "f") (goStr "m2")
        [goStr "y"]).FailLiteral grow (goStr "f") (goStr "m1")
        [goStr "x"]).commitsOf (goStr "f") (goStr "m1") = [goStr "c1", goStr "x"] ∧
    (((sharedAcrossMessages grow).FailLiteral grow (goStr "f") (goStr "m2")
        [goStr "y"]).FailLiteral grow (goStr "f") (goStr "m1")
        [goStr "x"]).commitsOf (goStr "f") (goStr "m2") = [goStr "c1", goStr "x"] := by
  have h0 := sharedAcrossMessages_grow grow
  have h1 : ((sharedAcrossMessages grow).FailLiteral grow (goStr "f") (goStr "m1")
        [goStr "x"]).FailLiteral grow (goStr "f") (goStr "m2") [goStr "y"]
      = ((sharedAcrossMessages exactGrowth).FailLiteral exactGrowth (goStr "f") (goStr "m1")
          [goStr "x"]).FailLiteral exactGrowth (goStr "f") (goStr "m2") [goStr "y"] :=
    FailLiteral_grow_eq (FailLiteral_grow_eq h0 (by decide)) (by decide)
  have h2 : ((sharedAcrossMessages grow).FailLiteral grow (goStr "f") (goStr "m2")
        [goStr "y"]).FailLiteral grow (goStr "f") (goStr "m1") [goStr "x"]
      = ((sharedAcrossMessages exactGrowth).FailLiteral exactGrowth (goStr "f") (goStr "m2")
          [goStr "y"]).FailLiteral exactGrowth (goStr "f") (goStr "m1") [goStr "x"] :=
    FailLiteral_grow_eq (FailLiteral_grow_eq h0 (by decide)) (by decide)
  rw [h1, h2, h0]
  decide

/-! ## Lemmas on the pattern detector -/

theorem Test_cons (x : Externals) (d : PatternDetector) (a : Addition) (rest : List Addition)
    (spec : TalismanRCIgnore) (r : DetectionResults) :
    d.Test x (a :: rest) spec r = d.Test x rest spec (d.Test x [a] spec r) := rfl

theorem foldl_patterns {ρ : Type} (step : ρ → GoString → ρ) (g : SecretPattern → List GoString)
    (ps : List SecretPattern) (r : ρ) :
    ps.foldl (fun r p => (g p).foldl step r) r = (ps.flatMap g).foldl step r := by
  induction ps generalizing r with
  | nil => rfl
  | cons p ps ih => simp [List.flatMap_cons, List.foldl_append, ih]

theorem Test_one_ignored (x : Externals) (d : PatternDetector) (a : Addition)
    (spec : TalismanRCIgnore) (r : DetectionResults)
    (h : IsIgnored x a.Path (goStr "filecontent") spec = true) :
    d.Test x [a] spec r = r := by
  unfold PatternDetector.Test
  simp only [List.foldl_cons, List.foldl_nil, h, if_true]
  rw [foldl_patterns (fun r _ => r) (fun p => p.findAll a.Data)]
  generalize List.flatMap d.patterns (fun p => p.findAll a.Data) = l
  induction l with
  | nil => rfl
  | cons t l ih => simp [ih]

theorem Test_one_not_ignored (x : Externals) (d : PatternDetector) (a : Addition)
    (spec : TalismanRCIgnore) (r : DetectionResults)
    (h : IsIgnored x a.Path (goStr "filecontent") spec = false) :
    d.Test x [a] spec r
      = runCalls r ((d.allMatches a.Data).map fun t => Call.fail a.Path t a.Commits) := by
  unfold PatternDetector.Test PatternDetector.allMatches runCalls
  simp only [List.foldl_cons, List.foldl_nil, h]
  rw [foldl_patterns
    (fun (r : DetectionResults) (t : GoString) =>
      if false = true then r else r.Fail a.Path t a.Commits)
    (fun p => p.findAll a.Data), List.foldl_map]
  simp [Call.apply]

theorem failMessages_map_fail (f : FilePath) (c : GoSlice) (ts : List GoString) :
    failMessages f (ts.map fun t => Call.fail f t c) = ts := by
  induction ts with
  | nil => rfl
  | cons t ts ih =>
    simp only [failMessages] at ih
    simp [failMessages, List.filterMap_cons, ih]

theorem failuresAt_runCalls_other (r : DetectionResults) (cs : List Call) (f : FilePath)
    (h : ∀ m c, Call.fail f m c ∉ cs) : failuresAt (runCalls r cs) f = failuresAt r f := by
  induction cs generalizing r with
  | nil => rfl
  | cons c cs ih =>
    rw [runCalls_cons, ih _ (fun m c' hmem => h m c' (List.mem_cons_of_mem _ hmem))]
    cases c with
    | fail f' m' c' =>
      have hf : f' ≠ f := by
        intro heq
        exact h m' c' (heq ▸ List.mem_cons_self _ _)
      exact failuresAt_Fail_ne r m' c' hf
    | ignore f' d' => exact failuresAt_Ignore r f' f d'

theorem storedCommits_nil (c : GoSlice) : storedCommits none c = c := rfl

theorem values_nil_runCalls (r : DetectionResults) (f : FilePath) (ts : List GoString)
    (h : ∀ e ∈ messagesOf r f, e.2 = none) :
    ∀ e ∈ messagesOf (runCalls r (ts.map fun t => Call.fail f t none)) f, e.2 = none := by
  induction ts generalizing r with
  | nil => simpa [runCalls] using h
  | cons t ts ih =>
    rw [List.map_cons, runCalls_cons]
    apply ih
    simp only [Call.apply, messagesOf_Fail_self]
    have hex : commitsIn (messagesOf r f) t = none := by
      unfold commitsIn
      cases hg : (messagesOf r f).get? t with
      | none => rfl
      | some v =>
        have := h _ (GoMap.mem_of_get? _ _ _ hg)
        simp only at this
        rw [this]; rfl
    rw [hex, storedCommits_nil]
    exact GoMap.forall_set (fun v : GoSlice => v = none) _ _ _ h rfl

theorem IsIgnored_of_first (x : Externals) (file : FilePath) (detectorName : GoString)
    (spec : TalismanRCIgnore) (e : FileIgnoreConfig)
    (hfind : spec.FileIgnoreConfig.find? (fun e => decide (e.FileName = file)) = some e)
    (hsum : e.Checksum = x.CalculateCollectiveHash [file])
    (hdet : e.IgnoreDetectors.elems = [] ∨ detectorName ∈ e.IgnoreDetectors.elems) :
    IsIgnored x file detectorName spec = true := by
  unfold IsIgnored
  rw [hfind]
  simp only [hsum, if_true, Bool.or_eq_true, decide_eq_true_eq]
  exact hdet

theorem failuresAt_Test_ignored (x : Externals) (d : PatternDetector)
    (additions : List Addition) (spec : TalismanRCIgnore) (r : DetectionResults) (p : FilePath)
    (h : IsIgnored x p (goStr "filecontent") spec = true) :
    failuresAt (d.Test x additions spec r) p = failuresAt r p := by
  induction additions generalizing r with
  | nil => rfl
  | cons b rest ih =>
    rw [Test_cons, ih]
    cases hb : IsIgnored x b.Path (goStr "filecontent") spec with
    | true => rw [Test_one_ignored x d b spec r hb]
    | false =>
      rw [Test_one_not_ignored x d b spec r hb]
      apply failuresAt_runCalls_other
      intro m c hmem
      rw [List.mem_map] at hmem
      obtain ⟨t, _, ht⟩ := hmem
      have hp : b.Path = p := by injection ht
      rw [hp, h] at hb
      cases hb

theorem Test_eq_TestWith (x : Externals) (d : PatternDetector) (additions : List Addition)
    (spec : TalismanRCIgnore) (r : DetectionResults) :
    d.Test x additions spec r = d.TestWith (IsIgnored x) additions spec r := rfl

theorem TestWith_cons (isIgnored : FilePath → GoString → TalismanRCIgnore → Bool)
    (d : PatternDetector) (a : Addition) (rest : List Addition) (spec : TalismanRCIgnore)
    (r : DetectionResults) :
    d.TestWith isIgnored (a :: rest) spec r
      = d.TestWith isIgnored rest spec (d.TestWith isIgnored [a] spec r) := rfl

theorem TestWith_one_ignored (isIgnored : FilePath → GoString → TalismanRCIgnore → Bool)
    (d : PatternDetector) (a : Addition) (spec : TalismanRCIgnore) (r : DetectionResults)
    (h : isIgnored a.Path (goStr "filecontent") spec = true) :
    d.TestWith isIgnored [a] spec r = r := by
  unfold PatternDetector.TestWith
  simp only [List.foldl_cons, List.foldl_nil, h, if_true]
  rw [foldl_patterns (fun r _ => r) (fun p => p.findAll a.Data)]
  generalize List.flatMap d.patterns (fun p => p.findAll a.Data) = l
  induction l with
  | nil => rfl
  | cons t l ih => simp [ih]

theorem TestWith_one_not_ignored (isIgnored : FilePath → GoString → TalismanRCIgnore → Bool)
    (d : PatternDetector) (a : Addition) (spec : TalismanRCIgnore) (r : DetectionResults)
    (h : isIgnored a.Path (goStr "filecontent") spec = false) :
    d.TestWith isIgnored [a] spec r
      = runCalls r ((d.allMatches a.Data).map fun t => Call.fail a.Path t a.Commits) := by
  unfold PatternDetector.TestWith PatternDetector.allMatches runCalls
  simp only [List.foldl_cons, List.foldl_nil, h]
  rw [foldl_patterns
    (fun (r : DetectionResults) (t : GoString) =>
      if false = true then r else r.Fail a.Path t a.Commits)
    (fun p => p.findAll a.Data), List.foldl_map]
  simp [Call.apply]

theorem failuresAt_TestWith_ignored
    (isIgnored : FilePath → GoString → TalismanRCIgnore → Bool) (d : PatternDetector)
    (additions : List Addition) (spec : TalismanRCIgnore) (r : DetectionResults) (p : FilePath)
    (h : isIgnored p (goStr "filecontent") spec = true) :
    failuresAt (d.TestWith isIgnored additions spec r) p = failuresAt r p := by
  induction additions generalizing r with
  | nil => rfl
  | cons b rest ih =>
    rw [TestWith_cons, ih]
    cases hb : isIgnored b.Path (goStr "filecontent") spec with
    | true => rw [TestWith_one_ignored isIgnored d b spec r hb]
    | false =>
      rw [TestWith_one_not_ignored isIgnored d b spec r hb]
      apply failuresAt_runCalls_other
      intro m c hmem
      rw [List.mem_map] at hmem
      obtain ⟨t, _, ht⟩ := hmem
      have hp : b.Path = p := by injection ht
      rw [hp, h] at hb
      cases hb

theorem find?_of_stronger {α : Type} (p q : α → Bool) (l : List α) (e : α)
    (h : l.find? p = some e) (hq : q e = true) (hqp : ∀ a, q a = true → p a = true) :
    l.find? q = some e := by
  induction l with
  | nil => simp at h
  | cons a l ih =>
    rw [List.find?_cons] at h ⊢
    cases hpa : p a with
    | true =>
      rw [hpa] at h
      have hae : a = e := by simpa using h
      subst hae
      simp [hq]
    | false =>
      rw [hpa] at h
      have hqa : q a = false := by
        cases hqa : q a with
        | false => rfl
        | true => rw [hqp a hqa] at hpa; cases hpa
      simp only [hqa]
      exact ih h

theorem IsIgnoredSkippingStale_of_first (x : Externals) (file : FilePath)
    (detectorName : GoString) (spec : TalismanRCIgnore) (e : FileIgnoreConfig)
    (hfind : spec.FileIgnoreConfig.find? (fun e => decide (e.FileName = file)) = some e)
    (hsum : e.Checksum = x.CalculateCollectiveHash [file])
    (hdet : e.IgnoreDetectors.elems = [] ∨ detectorName ∈ e.IgnoreDetectors.elems) :
    IsIgnoredSkippingStale x file detectorName spec = true := by
  have hname : e.FileName = file := by
    have := List.find?_some hfind
    simpa using this
  unfold IsIgnoredSkippingStale
  rw [find?_of_stronger _ _ _ e hfind (by simp [hname, hsum])
    (by intro a ha; simp only [Bool.and_eq_true] at ha; exact ha.1)]
  simp only [Bool.or_eq_true, decide_eq_true_eq]
  exact hdet

theorem count_eq_one_of_nodup (l : List GoString) (t : GoString) (hnd : l.Nodup)
    (ht : t ∈ l) : l.count t = 1 := by
  obtain ⟨l1, l2, rfl⟩ := List.append_of_mem ht
  have h1 : t ∉ l1 := fun hmem =>
    (List.nodup_append.mp hnd).2.2 hmem (List.mem_cons_self _ _)
  have h2 : t ∉ l2 := (List.nodup_cons.mp (List.nodup_append.mp hnd).2.1).1
  simp [List.count_append, List.count_eq_zero_of_not_mem h1,
    List.count_eq_zero_of_not_mem h2]

/-! ## The pattern detector -/

/-- C14: for an addition whose content has a match of some pattern of the
catalog, `Test` on that one addition, with an empty suppression spec and a fresh
result, records failure data for the addition's path whose message keys are
pairwise distinct and are exactly the matched substrings (one key for every
match, each a substring of the content), with a nil commit list under every key
when the addition has no commit attribution, and nothing for any other file; a
content with one match gives exactly one failure. -/
theorem C14_pattern_failures (x : Externals) (d : PatternDetector) (a : Addition)
    (h : d.allMatches a.Data ≠ []) :
    ∃ msgs, (d.Test x [a] ⟨[]⟩ NewDetectionResults).GetFailures a.Path = some ⟨some msgs⟩ ∧
      msgs.keys.Nodup ∧
      (∀ t, t ∈ msgs.keys ↔ t ∈ d.allMatches a.Data) ∧
      (∀ t ∈ d.allMatches a.Data, msgs.keys.count t = 1 ∧ t <:+: a.Data) ∧
      (a.Commits = none → ∀ t ∈ msgs.keys, msgs.get? t = some none) ∧
      (∀ t, d.allMatches a.Data = [t] → msgs = [(t, a.Commits)]) ∧
      (∀ f, f ≠ a.Path → (d.Test x [a] ⟨[]⟩ NewDetectionResults).GetFailures f = none) := by
  have hT := Test_one_not_ignored x d a ⟨[]⟩ NewDetectionResults rfl
  have hfm := failMessages_map_fail a.Path a.Commits (d.allMatches a.Data)
  have hnew : messagesOf NewDetectionResults a.Path = [] := rfl
  obtain ⟨t0, ht0⟩ := List.exists_mem_of_ne_nil _ h
  have hcall : ∃ m c, Call.fail a.Path m c ∈
      ((d.allMatches a.Data).map fun t => Call.fail a.Path t a.Commits) :=
    ⟨t0, a.Commits, List.mem_map.mpr ⟨t0, ht0, rfl⟩⟩
  have hnd := WF_messagesOf_runCalls NewDetectionResults
    ((d.allMatches a.Data).map fun t => Call.fail a.Path t a.Commits) a.Path
    (by rw [hnew]; exact List.nodup_nil)
  have hmem : ∀ t, t ∈ (messagesOf (runCalls NewDetectionResults
      ((d.allMatches a.Data).map fun t => Call.fail a.Path t a.Commits)) a.Path).keys ↔
      t ∈ d.allMatches a.Data := by
    intro t
    rw [mem_messagesOf_keys_runCalls, hnew, hfm]
    simp [GoMap.keys]
  rw [hT]
  refine ⟨_, failuresAt_runCalls_eq _ _ _ (Or.inr hcall), hnd, hmem, ?_, ?_, ?_, ?_⟩
  · intro t ht
    refine ⟨count_eq_one_of_nodup _ t hnd ((hmem t).mpr ht), ?_⟩
    obtain ⟨p, _, hp⟩ := List.mem_flatMap.mp ht
    exact p.isSubstring _ _ hp
  · intro hc t ht
    rw [hc] at ht ⊢
    have hval := values_nil_runCalls NewDetectionResults a.Path (d.allMatches a.Data)
      (by rw [hnew]; simp)
    have hsome := (GoMap.mem_keys_iff _ _).mp ht
    cases hg : GoMap.get? (messagesOf (runCalls NewDetectionResults
        ((d.allMatches a.Data).map fun t => Call.fail a.Path t none)) a.Path) t with
    | none => rw [hg] at hsome; simp at hsome
    | some v =>
      have := hval _ (GoMap.mem_of_get? _ _ _ hg)
      simp only at this
      rw [this]
  · intro t ht
    rw [ht]
    simp only [List.map_cons, List.map_nil, runCalls, List.foldl_cons, List.foldl_nil,
      Call.apply]
    rw [messagesOf_Fail_self, hnew]
    rfl
  · intro f hf
    unfold DetectionResults.GetFailures
    by_contra hne
    rcases (failuresAt_runCalls_ne_none _ _ f).mp hne with h0 | ⟨m, c, hm⟩
    · exact h0 rfl
    · obtain ⟨t, _, ht⟩ := List.mem_map.mp hm
      have : a.Path = f := by injection ht
      exact hf this.symm

/-- C14, on the content `password=somepassword\n` and a sample catalog: one
failure, with the matched text as message and the nil commit list. -/
theorem C14_pattern_failures_witness :
    sampleDetector.Test sampleExternals [passwordAddition] ⟨[]⟩ NewDetectionResults
      = ⟨[(goStr "secret.txt", some ⟨some [(goStr "password=somepassword", none)]⟩)], []⟩ ∧
    ∃ msgs, (sampleDetector.Test sampleExternals [passwordAddition] ⟨[]⟩
        NewDetectionResults).GetFailures passwordAddition.Path = some ⟨some msgs⟩ ∧
      msgs.keys.Nodup ∧
      (∀ t, t ∈ msgs.keys ↔ t ∈ sampleDetector.allMatches passwordAddition.Data) ∧
      (∀ t ∈ sampleDetector.allMatches passwordAddition.Data,
        msgs.keys.count t = 1 ∧ t <:+: passwordAddition.Data) ∧
      (passwordAddition.Commits = none → ∀ t ∈ msgs.keys, msgs.get? t = some none) ∧
      (∀ t, sampleDetector.allMatches passwordAddition.Data = [t] →
        msgs = [(t, passwordAddition.Commits)]) ∧
      (∀ f, f ≠ passwordAddition.Path →
        (sampleDetector.Test sampleExternals [passwordAddition] ⟨[]⟩
          NewDetectionResults).GetFailures f = none) :=
  ⟨by decide, C14_pattern_failures sampleExternals sampleDetector passwordAddition (by decide)⟩

/-- C15, as stated, fails: the spec holds an entry for `secret.txt` with the
current checksum and the detector `filecontent`, after an entry for the same
file with the current checksum and the detector `filename` only; the first
entry for the file decides, the file is not ignored for `filecontent`, and the
result is not successful, whether a stale entry ends the scan or is skipped. -/
theorem C15_first_entry_decides :
    (⟨passwordAddition.Path,
        sampleExternals.CalculateCollectiveHash [passwordAddition.Path],
        some [goStr "filecontent"]⟩ : FileIgnoreConfig) ∈ twoEntriesSpec.FileIgnoreConfig ∧
    (sampleDetector.Test sampleExternals [passwordAddition] twoEntriesSpec
      NewDetectionResults).Successful = false ∧
    (sampleDetector.TestWith (IsIgnoredSkippingStale sampleExternals) [passwordAddition]
      twoEntriesSpec NewDetectionResults).Successful = false := by
  refine ⟨by decide, by decide, by decide⟩

/-- C15, amended: for every addition, whatever its content, if the first entry
of the suppression spec whose filename is the addition's path has the current
collective hash of that path as checksum and a detector list that is empty or
holds `filecontent`, then `Test` records no failure for that file: a fresh
result stays successful, and among other additions the failure data of the file
is left as it was. This holds whether a stale entry ends the scan of the
resolver or is skipped by it. -/
theorem C15_first_entry_suppresses (x : Externals) (d : PatternDetector) (a : Addition)
    (additions : List Addition) (spec : TalismanRCIgnore) (r : DetectionResults)
    (e : FileIgnoreConfig)
    (hfind : spec.FileIgnoreConfig.find? (fun e => decide (e.FileName = a.Path)) = some e)
    (hsum : e.Checksum = x.CalculateCollectiveHash [a.Path])
    (hdet : e.IgnoreDetectors.elems = [] ∨ goStr "filecontent" ∈ e.IgnoreDetectors.elems) :
    ((d.Test x [a] spec NewDetectionResults).Successful = true ∧
      d.Test x [a] spec r = r ∧
      (d.Test x additions spec r).GetFailures a.Path = r.GetFailures a.Path) ∧
    ((d.TestWith (IsIgnoredSkippingStale x) [a] spec NewDetectionResults).Successful = true ∧
      d.TestWith (IsIgnoredSkippingStale x) [a] spec r = r ∧
      (d.TestWith (IsIgnoredSkippingStale x) additions spec r).GetFailures a.Path
        = r.GetFailures a.Path) := by
  have hign := IsIgnored_of_first x a.Path (goStr "filecontent") spec e hfind hsum hdet
  have hign' :=
    IsIgnoredSkippingStale_of_first x a.Path (goStr "filecontent") spec e hfind hsum hdet
  refine ⟨⟨?_, Test_one_ignored x d a spec r hign,
    failuresAt_Test_ignored x d additions spec r a.Path hign⟩,
    ⟨?_, TestWith_one_ignored _ d a spec r hign',
    failuresAt_TestWith_ignored _ d additions spec r a.Path hign'⟩⟩
  · rw [Test_one_ignored x d a spec _ hign]
    rfl
  · rw [TestWith_one_ignored _ d a spec _ hign']
    rfl

/-- C15 amended, on the spec of the repository's test
`TestShouldIgnorePasswordPatterns`: one entry with the detector `filecontent`. -/
theorem C15_first_entry_suppresses_witness :
    ((sampleDetector.Test sampleExternals [passwordAddition] validSpec
        NewDetectionResults).Successful = true ∧
      sampleDetector.Test sampleExternals [passwordAddition] validSpec bombResults
        = bombResults ∧
      (sampleDetector.Test sampleExternals
          [NewAddition (goStr "key.pem") (goStr "BEGIN RSA"), passwordAddition] validSpec
          bombResults).GetFailures passwordAddition.Path
        = bombResults.GetFailures passwordAddition.Path) ∧
    ((sampleDetector.TestWith (IsIgnoredSkippingStale sampleExternals) [passwordAddition]
        validSpec NewDetectionResults).Successful = true ∧
      sampleDetector.TestWith (IsIgnoredSkippingStale sampleExternals) [passwordAddition]
        validSpec bombResults = bombResults ∧
      (sampleDetector.TestWith (IsIgnoredSkippingStale sampleExternals)
          [NewAddition (goStr "key.pem") (goStr "BEGIN RSA"), passwordAddition] validSpec
          bombResults).GetFailures passwordAddition.Path
        = bombResults.GetFailures passwordAddition.Path) :=
  C15_first_entry_suppresses sampleExternals sampleDetector passwordAddition
    [NewAddition (goStr "key.pem") (goStr "BEGIN RSA"), passwordAddition] validSpec bombResults
    ⟨goStr "secret.txt",
      goStr "87139cc4d975333b25b6275f97680604add51b84eb8f4a3b9dcbbc652e6f27ac",
      some [goStr "filecontent"]⟩
    (by decide) (by decide) (by decide)

end Talisman
